import Mathlib

/-!
# Verification of the Persistra node-graph computation engine

Shallow embedding of the core of the `persistra` repository
(`src/persistra/core/{types,project,engine,composite,io}.py`) together with
theorems settling the specification claims about it.

Conventions used throughout:
* Python dictionaries that are only read through `get`/membership are embedded
  as association lists (`List (String × _)`) with `lookup`.
* Python object references are embedded as node / socket identifiers (`Nat`),
  with the mutable object heap embedded as explicit state values.
* Python recursion that terminates for extrinsic reasons (dirty-flag guards,
  acyclicity) is embedded with explicit fuel, and the adequacy of a concrete
  fuel bound is proved where a claim depends on termination.
-/

namespace Persistra

/-! ## Type system (`core/types.py`)

`DataWrapper` subclasses from `core/objects.py` form a flat hierarchy: every
wrapper class is a subclass of itself and of `DataWrapper`, and the concrete
wrappers are unrelated to each other. -/

inductive WrapperCls where
  | dataWrapper
  | timeSeries
  | distanceMatrix
  | persistenceDiagram
  | figureWrapper
  | interactiveFigure
  | pointCloud
  deriving DecidableEq, Repr

/-- Python `issubclass(a, b)` on the wrapper classes of `core/objects.py`:
every class is a subclass of `DataWrapper` and of itself. -/
def WrapperCls.issubclass : WrapperCls → WrapperCls → Bool
  | _, .dataWrapper => true
  | a, b => a == b

/-- `ConcreteType` of `core/types.py`.  `dtype = none` and `shape = none`
embed Python's `None`; a falsy `""` dtype or `()` shape behaves like `None`
in the source (`if self.dtype and ...`) and is identified with `none` here. -/
structure ConcreteType where
  wrapper_cls : WrapperCls
  dtype : Option String := none
  shape : Option (List (Option Nat)) := none
  deriving DecidableEq, Repr

/-- `ConcreteType.accepts` restricted to a concrete `other`
(`core/types.py` lines 36–48, the `isinstance(other, ConcreteType)` branch):
wrapper subclass check, dtype mismatch rejected only when both sides carry a
dtype, shape compared only when both sides carry a shape. -/
def ConcreteType.acceptsC (a b : ConcreteType) : Bool :=
  if !(b.wrapper_cls.issubclass a.wrapper_cls) then false
  else if (match a.dtype, b.dtype with
           | some d1, some d2 => d1 != d2
           | _, _ => false) then false
  else match a.shape, b.shape with
    | some s1, some s2 =>
        if s1.length != s2.length then false
        else (List.zip s1 s2).all fun p =>
          match p.1, p.2 with
          | none, _ => true
          | some d, o => o == some d
    | _, _ => true

/-- Dimension compatibility for two shape tuples of equal rank: every
non-`None` dimension of the accepting side equals the corresponding
dimension of the source side. -/
def dimsMatch (s1 s2 : List (Option Nat)) : Prop :=
  s1.length = s2.length ∧ ∀ p ∈ List.zip s1 s2, ∀ d, p.1 = some d → p.2 = some d

/-- The acceptance rule exactly as the claim states it: the dtype clause
requires A to be unconstrained or B to carry the *same* dtype, and the shape
clause requires A to be unconstrained or B to carry a rank-equal matching
shape.  (This is the reading under which B carrying *no* annotation does not
"match" a constrained A.) -/
def claimedAcceptRule (a b : ConcreteType) : Prop :=
  b.wrapper_cls.issubclass a.wrapper_cls = true
  ∧ (a.dtype = none ∨ b.dtype = a.dtype)
  ∧ (a.shape = none ∨ ∃ s1 s2, a.shape = some s1 ∧ b.shape = some s2 ∧ dimsMatch s1 s2)

/-- The acceptance rule the code implements: a source that carries no dtype
(resp. no shape) annotation is accepted by a dtype-(resp. shape-)constrained
target. -/
def codeAcceptRule (a b : ConcreteType) : Prop :=
  b.wrapper_cls.issubclass a.wrapper_cls = true
  ∧ (a.dtype = none ∨ b.dtype = none ∨ b.dtype = a.dtype)
  ∧ (a.shape = none ∨ b.shape = none ∨
      ∃ s1 s2, a.shape = some s1 ∧ b.shape = some s2 ∧ dimsMatch s1 s2)

lemma dimCheck_eq_true (p1 p2 : Option Nat) :
    ((match p1, p2 with
      | none, _ => true
      | some d, o => o == some d) = true) ↔
    (∀ d, p1 = some d → p2 = some d) := by
  rcases p1 with _ | d
  · simp
  · constructor
    · intro h d' hd'
      have hdd : d = d' := by simpa using hd'
      subst hdd
      simpa using h
    · intro h
      have := h d rfl
      simpa using this

/-- C3 (amended): `ConcreteType.accepts` on concrete arguments is exactly the
wrapper-subclass check, plus the dtype check applied only when both sides
carry a dtype, plus the shape check applied only when both sides carry a
shape. -/
theorem acceptsC_iff_codeRule (a b : ConcreteType) :
    a.acceptsC b = true ↔ codeAcceptRule a b := by
  unfold ConcreteType.acceptsC codeAcceptRule
  rcases hsub : b.wrapper_cls.issubclass a.wrapper_cls with _ | _
  · simp [hsub]
  · rcases had : a.dtype with _ | d1
    · rcases has : a.shape with _ | s1
      · simp [hsub, had, has]
      · rcases hbs : b.shape with _ | s2
        · simp [hsub, had, has, hbs]
        · simp only [hsub, had, has, hbs, Bool.not_true, Bool.false_eq_true,
            if_false]
          rcases hlen : (s1.length != s2.length) with _ | _
          · have hlen' : s1.length = s2.length := by
              simpa using hlen
            simp [hlen, List.all_eq_true, dimCheck_eq_true, dimsMatch, hlen']
          · have hlen' : ¬ s1.length = s2.length := by
              simpa using hlen
            simp [hlen, dimsMatch, hlen']
    · rcases hbd : b.dtype with _ | d2
      · rcases has : a.shape with _ | s1
        · simp [hsub, had, has, hbd]
        · rcases hbs : b.shape with _ | s2
          · simp [hsub, had, has, hbs, hbd]
          · simp only [hsub, had, hbd, has, hbs, Bool.not_true,
              Bool.false_eq_true, if_false]
            rcases hlen : (s1.length != s2.length) with _ | _
            · have hlen' : s1.length = s2.length := by simpa using hlen
              simp [hlen, List.all_eq_true, dimCheck_eq_true, dimsMatch, hlen']
            · have hlen' : ¬ s1.length = s2.length := by simpa using hlen
              simp [hlen, dimsMatch, hlen']
      · rcases hd : (d1 != d2) with _ | _
        · have hd' : d1 = d2 := by simpa using hd
          rcases has : a.shape with _ | s1
          · simp [hsub, had, has, hbd, hd, hd']
          · rcases hbs : b.shape with _ | s2
            · simp [hsub, had, has, hbs, hbd, hd, hd']
            · simp only [hsub, had, hbd, has, hbs, hd, Bool.not_true,
                Bool.false_eq_true, if_false]
              rcases hlen : (s1.length != s2.length) with _ | _
              · have hlen' : s1.length = s2.length := by simpa using hlen
                simp [hlen, List.all_eq_true, dimCheck_eq_true, dimsMatch, hlen', hd']
              · have hlen' : ¬ s1.length = s2.length := by simpa using hlen
                simp [hlen, dimsMatch, hlen', hd']
        · have hd' : ¬ d1 = d2 := by simpa using hd
          have hd2 : ¬ d2 = d1 := fun he => hd' he.symm
          simp [hsub, had, hbd, hd, hd2]

/-- C3 (counterexample): a dtype-constrained target accepts a source carrying
no dtype annotation, which the claim's rule rejects. -/
theorem acceptsC_claim_counterexample :
    (ConcreteType.acceptsC ⟨.pointCloud, some "float64", none⟩
      ⟨.pointCloud, none, none⟩) = true
    ∧ ¬ claimedAcceptRule ⟨.pointCloud, some "float64", none⟩
        ⟨.pointCloud, none, none⟩ := by
  constructor
  · rfl
  · intro h
    rcases h with ⟨_, hdt, _⟩
    rcases hdt with hdt | hdt <;> simp at hdt

/-! ## Iterator convergence check (`core/composite.py`, `IteratorNode._has_converged`)

Result maps are embedded as association lists (`dict` with unique keys);
`dict.get` is `List.lookup`.  The payloads flowing between iterations are
either raw numeric data or a `DataWrapper` around it; non-numeric payloads
make the `np.linalg.norm(np.asarray(c) - np.asarray(p))` computation raise
`TypeError`, embedded as `none`.  Numeric data is embedded by scalars
(`np.linalg.norm` of a scalar difference is its absolute value). -/

inductive RawData where
  | num (q : ℚ)
  | text (s : String)
  deriving DecidableEq

inductive PyVal where
  | raw (d : RawData)
  | wrapper (d : RawData)
  deriving DecidableEq

/-- `v.data if isinstance(v, DataWrapper) else v` -/
def PyVal.unwrap : PyVal → RawData
  | .raw d => d
  | .wrapper d => d

/-- `float(np.linalg.norm(np.asarray(c_data) - np.asarray(p_data)))`,
`none` when the subtraction raises `TypeError`/`ValueError`. -/
def normDiff : RawData → RawData → Option ℚ
  | .num c, .num p => some |c - p|
  | _, _ => none

/-- The `for key in curr` loop body of `_has_converged`, iterating over the
keys of `curr`. -/
def hasConvergedAux (prev curr : List (String × PyVal)) (tol : ℚ) :
    List (String × PyVal) → Bool
  | [] => true
  | (key, _) :: rest =>
    match prev.lookup key, curr.lookup key with
    | some p_val, some c_val =>
      match normDiff c_val.unwrap p_val.unwrap with
      | some delta => if delta ≥ tol then false else hasConvergedAux prev curr tol rest
      | none => false
    | _, _ => false

/-- `IteratorNode._has_converged(prev, curr, tolerance)`
(`core/composite.py` lines 229–249). -/
def hasConverged (prev curr : List (String × PyVal)) (tol : ℚ) : Bool :=
  hasConvergedAux prev curr tol curr

/-- The convergence rule exactly as the claim states it: *every* output key —
a key present in either map — must be present in both maps with a measurable
difference strictly below tolerance. -/
def claimedConvergedRule (prev curr : List (String × PyVal)) (tol : ℚ) : Prop :=
  ∀ key, (key ∈ prev.map Prod.fst ∨ key ∈ curr.map Prod.fst) →
    ∃ p c d, prev.lookup key = some p ∧ curr.lookup key = some c ∧
      normDiff c.unwrap p.unwrap = some d ∧ d < tol

/-- The convergence rule the code implements: only keys of the *current*
result map are examined; a key present only in `prev` is ignored. -/
def codeConvergedRule (prev curr : List (String × PyVal)) (tol : ℚ) : Prop :=
  ∀ kv ∈ curr, ∃ p c d, prev.lookup kv.1 = some p ∧ curr.lookup kv.1 = some c ∧
    normDiff c.unwrap p.unwrap = some d ∧ d < tol

lemma hasConvergedAux_iff (prev curr : List (String × PyVal)) (tol : ℚ)
    (l : List (String × PyVal)) :
    hasConvergedAux prev curr tol l = true ↔
    ∀ kv ∈ l, ∃ p c d, prev.lookup kv.1 = some p ∧ curr.lookup kv.1 = some c ∧
      normDiff c.unwrap p.unwrap = some d ∧ d < tol := by
  induction l with
  | nil => simp [hasConvergedAux]
  | cons kv rest ih =>
    rcases kv with ⟨key, v⟩
    rcases hp : prev.lookup key with _ | p_val
    · simp only [hasConvergedAux, hp]
      constructor
      · intro h; cases h
      · intro h
        rcases h ⟨key, v⟩ (by simp) with ⟨p, c, d, hp', _⟩
        rw [hp] at hp'; cases hp'
    · rcases hc : curr.lookup key with _ | c_val
      · simp only [hasConvergedAux, hp, hc]
        constructor
        · intro h; cases h
        · intro h
          rcases h ⟨key, v⟩ (by simp) with ⟨p, c, d, _, hc', _⟩
          rw [hc] at hc'; cases hc'
      · rcases hn : normDiff c_val.unwrap p_val.unwrap with _ | delta
        · simp only [hasConvergedAux, hp, hc, hn]
          constructor
          · intro h; cases h
          · intro h
            rcases h ⟨key, v⟩ (by simp) with ⟨p, c, d, hp', hc', hn', _⟩
            rw [hp] at hp'; cases hp'
            rw [hc] at hc'; cases hc'
            rw [hn] at hn'; cases hn'
        · by_cases hge : delta ≥ tol
          · simp only [hasConvergedAux, hp, hc, hn, if_pos hge]
            constructor
            · intro h; cases h
            · intro h
              rcases h ⟨key, v⟩ (by simp) with ⟨p, c, d, hp', hc', hn', hd⟩
              rw [hp] at hp'; cases hp'
              rw [hc] at hc'; cases hc'
              rw [hn] at hn'; cases hn'
              exact absurd hd (not_lt.mpr hge)
          · simp only [hasConvergedAux, hp, hc, hn, if_neg hge]
            rw [ih]
            constructor
            · intro h kv hkv
              rcases List.mem_cons.mp hkv with rfl | hkv
              · exact ⟨p_val, c_val, delta, hp, hc, hn, not_le.mp hge⟩
              · exact h kv hkv
            · intro h kv hkv
              exact h kv (List.mem_cons_of_mem _ hkv)

/-- C5 (amended): `_has_converged` returns `True` iff for every key of the
*current* result map, the key is present in the previous map and the norm of
the unwrapped difference is defined (numeric data) and strictly below the
tolerance; keys present only in the previous map are ignored. -/
theorem hasConverged_iff_codeRule (prev curr : List (String × PyVal)) (tol : ℚ) :
    hasConverged prev curr tol = true ↔ codeConvergedRule prev curr tol :=
  hasConvergedAux_iff prev curr tol curr

/-- C5 (counterexample): a key `"b"` present in `prev` but missing from
`curr` does not prevent `_has_converged` from returning `True`, although the
claim counts a key missing in either map as not converged. -/
theorem hasConverged_claim_counterexample :
    hasConverged
      [("a", .raw (.num 1)), ("b", .raw (.num 2))]
      [("a", .raw (.num 1))] (1/2) = true
    ∧ ¬ claimedConvergedRule
      [("a", .raw (.num 1)), ("b", .raw (.num 2))]
      [("a", .raw (.num 1))] (1/2) := by
  constructor
  · rw [hasConverged, hasConvergedAux_iff]
    intro kv hkv
    have hkv' : kv = ("a", PyVal.raw (RawData.num 1)) := by simpa using hkv
    subst hkv'
    refine ⟨.raw (.num 1), .raw (.num 1), 0, by simp [List.lookup],
      by simp [List.lookup], ?_, by norm_num⟩
    simp [normDiff, PyVal.unwrap]
  · intro h
    rcases h "b" (Or.inl (by simp)) with ⟨p, c, d, _, hc, _⟩
    simp [List.lookup] at hc

/-! ## Node state machine and push invalidation (`core/project.py`)

`Node.invalidate` (lines 192–208) recurses through the graph of output
connections, guarded by the dirty flag.  The graph structure read by the
recursion is embedded as a static child map (`children n` is the
concatenation, over `n`'s output sockets, of the connected input sockets'
owning-node ids); the mutable per-node runtime state is an explicit state
function.  The recursion is embedded with fuel; the fuel bound
`cleanCount + 1` is proved adequate (this is the termination content of the
claim). -/

inductive NodeState where
  | idle
  | dirty
  | computing
  | valid
  | error
  | invalid
  deriving DecidableEq, Repr

structure NodeRt where
  dirty : Bool
  cache : List (String × PyVal)
  error : Option String
  state : NodeState
  deriving DecidableEq

/-- The static graph structure visible to `invalidate`. -/
structure InvGraph where
  nodes : List Nat
  children : Nat → List Nat

def InvGraph.Closed (g : InvGraph) : Prop :=
  ∀ u ∈ g.nodes, ∀ v ∈ g.children u, v ∈ g.nodes

abbrev InvSt := Nat → NodeRt

/-- The mutation performed on `self` by a non-no-op `invalidate` call:
`_is_dirty = True`, `_cached_outputs = {}`, `_error = None`,
`state = NodeState.DIRTY`. -/
def markDirty (s : InvSt) (n : Nat) : InvSt :=
  fun v => if v = n then ⟨true, [], none, .dirty⟩ else s v

/-- `Node.invalidate` with explicit fuel: no-op when already dirty, else
mark dirty and recurse into every node connected to an output socket. -/
def invFuel (g : InvGraph) : Nat → Nat → InvSt → InvSt
  | 0, _, s => s
  | fuel + 1, n, s =>
    if (s n).dirty then s
    else (g.children n).foldl (fun acc c => invFuel g fuel c acc) (markDirty s n)

/-- The sequential recursion over a list of pending output connections. -/
def invFold (g : InvGraph) (fuel : Nat) (l : List Nat) (s : InvSt) : InvSt :=
  l.foldl (fun acc c => invFuel g fuel c acc) s

/-- Number of nodes of the project that are currently clean — the measure
that bounds the depth of the invalidation wave. -/
def cleanCount (g : InvGraph) (s : InvSt) : Nat :=
  g.nodes.countP (fun v => !(s v).dirty)

/-- `Node.invalidate`: the fuel `cleanCount + 1` is adequate
(`invFuel_stable`). -/
def invalidate (g : InvGraph) (s : InvSt) (n : Nat) : InvSt :=
  invFuel g (cleanCount g s + 1) n s

lemma invFold_nil (g : InvGraph) (fuel : Nat) (s : InvSt) :
    invFold g fuel [] s = s := rfl

lemma invFold_cons (g : InvGraph) (fuel : Nat) (c : Nat) (l : List Nat)
    (s : InvSt) :
    invFold g fuel (c :: l) s = invFold g fuel l (invFuel g fuel c s) := rfl

lemma invFuel_succ (g : InvGraph) (fuel n : Nat) (s : InvSt) :
    invFuel g (fuel + 1) n s =
    if (s n).dirty then s
    else invFold g fuel (g.children n) (markDirty s n) := rfl

/-- A node that is already dirty is never touched again: its whole runtime
record is preserved by any further invalidation. -/
lemma invFuel_preserves_dirty_record (g : InvGraph) :
    ∀ fuel n s v, (s v).dirty = true → (invFuel g fuel n s) v = s v := by
  intro fuel
  induction fuel with
  | zero => intro n s v _; rfl
  | succ fuel ih =>
    intro n s v hv
    rw [invFuel_succ]
    by_cases hn : (s n).dirty
    · simp [hn]
    · rw [if_neg hn]
      have hvn : ¬ v = n := by
        intro h; rw [h] at hv; exact hn hv
      have hmark : (markDirty s n) v = s v := by
        simp [markDirty, hvn]
      have : ∀ l t, (t v).dirty = true → (invFold g fuel l t) v = t v := by
        intro l
        induction l with
        | nil => intro t ht; rfl
        | cons c l ihl =>
          intro t ht
          rw [invFold_cons]
          have h1 : (invFuel g fuel c t) v = t v := ih c t v ht
          rw [ihl _ (by rw [h1]; exact ht), h1]
      rw [this _ _ (by rw [hmark]; exact hv), hmark]

lemma invFold_preserves_dirty_record (g : InvGraph) (fuel : Nat)
    (l : List Nat) (s : InvSt) (v : Nat) (hv : (s v).dirty = true) :
    (invFold g fuel l s) v = s v := by
  induction l generalizing s with
  | nil => rfl
  | cons c l ihl =>
    rw [invFold_cons]
    have h1 : (invFuel g fuel c s) v = s v :=
      invFuel_preserves_dirty_record g fuel c s v hv
    rw [ihl _ (by rw [h1]; exact hv), h1]

/-- Invalidation never cleans a node. -/
lemma invFuel_dirty_mono (g : InvGraph) (fuel n : Nat) (s : InvSt) (v : Nat)
    (hv : (s v).dirty = true) : ((invFuel g fuel n s) v).dirty = true := by
  rw [invFuel_preserves_dirty_record g fuel n s v hv]; exact hv

lemma invFold_dirty_mono (g : InvGraph) (fuel : Nat) (l : List Nat)
    (s : InvSt) (v : Nat) (hv : (s v).dirty = true) :
    ((invFold g fuel l s) v).dirty = true := by
  rw [invFold_preserves_dirty_record g fuel l s v hv]; exact hv

lemma cleanCount_mono_of_dirty_mono (g : InvGraph) (s t : InvSt)
    (h : ∀ v, (s v).dirty = true → (t v).dirty = true) :
    cleanCount g t ≤ cleanCount g s := by
  unfold cleanCount
  apply List.countP_mono_left
  intro v _ hv
  simp only [Bool.not_eq_true'] at hv ⊢
  by_contra hc
  simp only [Bool.not_eq_false] at hc
  rw [h v hc] at hv
  cases hv

lemma invFuel_cleanCount_le (g : InvGraph) (fuel n : Nat) (s : InvSt) :
    cleanCount g (invFuel g fuel n s) ≤ cleanCount g s :=
  cleanCount_mono_of_dirty_mono g s _ (invFuel_dirty_mono g fuel n s)

lemma invFold_cleanCount_le (g : InvGraph) (fuel : Nat) (l : List Nat)
    (s : InvSt) : cleanCount g (invFold g fuel l s) ≤ cleanCount g s :=
  cleanCount_mono_of_dirty_mono g s _ (invFold_dirty_mono g fuel l s)

/-- Marking a clean project node dirty strictly decreases the clean count. -/
lemma cleanCount_markDirty_lt (g : InvGraph) (s : InvSt) (n : Nat)
    (hn : n ∈ g.nodes) (hclean : (s n).dirty = false) :
    cleanCount g (markDirty s n) < cleanCount g s := by
  unfold cleanCount
  rcases List.append_of_mem hn with ⟨l1, l2, hsplit⟩
  rw [hsplit, List.countP_append, List.countP_append, List.countP_cons,
    List.countP_cons]
  have hmark_n : (!(markDirty s n n).dirty) = false := by simp [markDirty]
  have hs_n : (!(s n).dirty) = true := by simp [hclean]
  have h1 : List.countP (fun v => !(markDirty s n v).dirty) l1 ≤
      List.countP (fun v => !(s v).dirty) l1 := by
    apply List.countP_mono_left
    intro v _ hv
    by_cases hvn : v = n
    · subst hvn; simp [markDirty] at hv
    · simpa [markDirty, hvn] using hv
  have h2 : List.countP (fun v => !(markDirty s n v).dirty) l2 ≤
      List.countP (fun v => !(s v).dirty) l2 := by
    apply List.countP_mono_left
    intro v _ hv
    by_cases hvn : v = n
    · subst hvn; simp [markDirty] at hv
    · simpa [markDirty, hvn] using hv
  simp only [hmark_n, hs_n, if_true, Bool.false_eq_true, if_false]
  omega

/-- Fuel adequacy: any fuel strictly above the number of currently-clean
project nodes yields the same result — the recursion has stabilized, which is
the termination content of the invalidation claim. -/
lemma invFuel_stable (g : InvGraph) (hclosed : g.Closed) :
    ∀ k f1 f2 n s, n ∈ g.nodes → cleanCount g s ≤ k → k < f1 → k < f2 →
      invFuel g f1 n s = invFuel g f2 n s := by
  intro k
  induction k using Nat.strong_induction_on with
  | _ k IH =>
    intro f1 f2 n s hn hcc hf1 hf2
    match f1, f2 with
    | a + 1, b + 1 =>
      rw [invFuel_succ, invFuel_succ]
      by_cases hd : (s n).dirty
      · simp [hd]
      · rw [if_neg hd, if_neg hd]
        have hc1 : 0 < cleanCount g s :=
          List.countP_pos.mpr ⟨n, hn, by simp [hd]⟩
        have hk1 : 1 ≤ k := le_trans hc1 hcc
        have hccm : cleanCount g (markDirty s n) ≤ k - 1 := by
          have := cleanCount_markDirty_lt g s n hn (by simpa using hd)
          omega
        have hfold : ∀ l, (∀ c ∈ l, c ∈ g.nodes) →
            ∀ t, cleanCount g t ≤ k - 1 → invFold g a l t = invFold g b l t := by
          intro l
          induction l with
          | nil => intro _ t _; rfl
          | cons c l ihl =>
            intro hcl t hct
            rw [invFold_cons, invFold_cons]
            have hc : c ∈ g.nodes := hcl c (List.mem_cons_self c l)
            have heq : invFuel g a c t = invFuel g b c t :=
              IH (k - 1) (by omega) a b c t hc hct (by omega) (by omega)
            rw [heq]
            exact ihl (fun x hx => hcl x (List.mem_cons_of_mem _ hx)) _
              (le_trans (invFuel_cleanCount_le g b c t) hct)
        exact hfold _ (hclosed n hn) _ hccm

/-- The invalidation wave: running the recursion over a pending list `l`
(with enough fuel) dirties every member of `l` and restores downward-closed
dirtiness except at the nodes of an `excuse` list that an outer frame has
still to process. -/
lemma invFold_wave (g : InvGraph) (hclosed : g.Closed) :
    ∀ (k fuel : Nat) (l excuse : List Nat) (s : InvSt),
      cleanCount g s ≤ k → k < fuel →
      (∀ c ∈ l, c ∈ g.nodes) →
      (∀ u ∈ g.nodes, ∀ v ∈ g.children u, (s u).dirty = true →
        ((s v).dirty = true ∨ v ∈ l ∨ v ∈ excuse)) →
      (∀ u ∈ g.nodes, ∀ v ∈ g.children u,
        ((invFold g fuel l s) u).dirty = true →
        (((invFold g fuel l s) v).dirty = true ∨ v ∈ excuse))
      ∧ (∀ c ∈ l, ((invFold g fuel l s) c).dirty = true) := by
  intro k
  induction k using Nat.strong_induction_on with
  | _ k IH =>
    intro fuel l
    induction l with
    | nil =>
      intro excuse s _ _ _ hinv
      refine ⟨?_, by simp⟩
      intro u hu v hv hdu
      rcases hinv u hu v hv hdu with h | h | h
      · exact Or.inl h
      · cases h
      · exact Or.inr h
    | cons c rest ihl =>
      intro excuse s hcc hfuel hmem hinv
      have hc : c ∈ g.nodes := hmem c (List.mem_cons_self c rest)
      have hrest : ∀ x ∈ rest, x ∈ g.nodes :=
        fun x hx => hmem x (List.mem_cons_of_mem _ hx)
      cases fuel with
      | zero => omega
      | succ f =>
        rw [invFold_cons]
        by_cases hd : (s c).dirty
        · have hstep : invFuel g (f + 1) c s = s := by
            rw [invFuel_succ, if_pos hd]
          rw [hstep]
          have hinv' : ∀ u ∈ g.nodes, ∀ v ∈ g.children u, (s u).dirty = true →
              ((s v).dirty = true ∨ v ∈ rest ∨ v ∈ excuse) := by
            intro u hu v hv hdu
            rcases hinv u hu v hv hdu with h | h | h
            · exact Or.inl h
            · rcases List.mem_cons.mp h with rfl | h
              · exact Or.inl hd
              · exact Or.inr (Or.inl h)
            · exact Or.inr (Or.inr h)
          rcases ihl excuse s hcc hfuel hrest hinv' with ⟨ha, hb⟩
          refine ⟨ha, ?_⟩
          intro x hx
          rcases List.mem_cons.mp hx with rfl | hx
          · exact invFold_dirty_mono g (f + 1) rest s x hd
          · exact hb x hx
        · have hc1 : 0 < cleanCount g s :=
            List.countP_pos.mpr ⟨c, hc, by simp [hd]⟩
          have hk1 : 1 ≤ k := le_trans hc1 hcc
          have hstep : invFuel g (f + 1) c s =
              invFold g f (g.children c) (markDirty s c) := by
            rw [invFuel_succ, if_neg hd]
          rw [hstep]
          have hccm : cleanCount g (markDirty s c) ≤ k - 1 := by
            have := cleanCount_markDirty_lt g s c hc (by simpa using hd)
            omega
          have hinner := IH (k - 1) (by omega) f (g.children c)
            (rest ++ excuse) (markDirty s c) hccm (by omega)
            (hclosed c hc) ?_
          · rcases hinner with ⟨ha1, hb1⟩
            set t1 := invFold g f (g.children c) (markDirty s c) with ht1
            have hinv1 : ∀ u ∈ g.nodes, ∀ v ∈ g.children u,
                (t1 u).dirty = true →
                ((t1 v).dirty = true ∨ v ∈ rest ∨ v ∈ excuse) := by
              intro u hu v hv hdu
              rcases ha1 u hu v hv hdu with h | h
              · exact Or.inl h
              · rcases List.mem_append.mp h with h | h
                · exact Or.inr (Or.inl h)
                · exact Or.inr (Or.inr h)
            have hcct1 : cleanCount g t1 ≤ k :=
              le_trans (invFold_cleanCount_le g f (g.children c) (markDirty s c))
                (le_trans hccm (by omega))
            rcases ihl excuse t1 hcct1 hfuel hrest hinv1 with ⟨ha2, hb2⟩
            refine ⟨ha2, ?_⟩
            intro x hx
            rcases List.mem_cons.mp hx with rfl | hx
            · have hmark : ((markDirty s x) x).dirty = true := by
                simp [markDirty]
              have ht1x : (t1 x).dirty = true :=
                invFold_dirty_mono g f (g.children x) (markDirty s x) x hmark
              exact invFold_dirty_mono g (f + 1) rest t1 x ht1x
            · exact hb2 x hx
          · intro u hu v hv hdu
            by_cases huc : u = c
            · subst huc
              exact Or.inr (Or.inl hv)
            · have hdu' : (s u).dirty = true := by
                simpa [markDirty, huc] using hdu
              rcases hinv u hu v hv hdu' with h | h | h
              · refine Or.inl ?_
                by_cases hvc : v = c
                · subst hvc; simp [markDirty]
                · simpa [markDirty, hvc] using h
              · rcases List.mem_cons.mp h with rfl | h
                · refine Or.inl ?_; simp [markDirty]
                · exact Or.inr (Or.inr (List.mem_append.mpr (Or.inl h)))
              · exact Or.inr (Or.inr (List.mem_append.mpr (Or.inr h)))

/-- Downward-closed dirtiness propagates along any downstream path. -/
lemma dirty_along_path (g : InvGraph) (hclosed : g.Closed) (t : InvSt)
    (hI : ∀ u ∈ g.nodes, ∀ v ∈ g.children u, (t u).dirty = true →
      (t v).dirty = true)
    (n : Nat) (hn : n ∈ g.nodes) (hdn : (t n).dirty = true) :
    ∀ v, Relation.ReflTransGen (fun a b => b ∈ g.children a) n v →
      v ∈ g.nodes ∧ (t v).dirty = true := by
  intro v hpath
  induction hpath with
  | refl => exact ⟨hn, hdn⟩
  | tail hab hbc ih =>
    rcases ih with ⟨hmem, hdirty⟩
    exact ⟨hclosed _ hmem _ hbc, hI _ hmem _ hbc hdirty⟩

/-- Concrete diamond-shaped graph used to witness the invalidation claim:
`0 → 1 → 2` and `0 → 2` (fan-out at 0, fan-in at 2). -/
def invWitnessG : InvGraph :=
  ⟨[0, 1, 2], fun n => if n = 0 then [1, 2] else if n = 1 then [2] else []⟩

/-- All-clean runtime state for the witness graph. -/
def invWitnessS : InvSt := fun _ => ⟨false, [], none, .idle⟩

/-- C2: on a project whose dirtiness is downstream-closed (as all states
produced by the engine are — nodes start dirty and invalidation itself
preserves the closure), `Node.invalidate` (a) is a strict no-op on an
already-dirty node, (b) otherwise clears the node's cache and error and
marks it dirty, (c) stabilizes at fuel `cleanCount + 1` — i.e. the recursion
terminates on any graph shape, diamonds included — and (d) leaves every
transitive downstream dependent of the node dirty. -/
theorem invalidate_correct (g : InvGraph) (s : InvSt) (n : Nat)
    (hclosed : g.Closed) (hn : n ∈ g.nodes)
    (hdc : ∀ u ∈ g.nodes, ∀ v ∈ g.children u, (s u).dirty = true →
      (s v).dirty = true) :
    ((s n).dirty = true → invalidate g s n = s)
    ∧ ((s n).dirty = false → (invalidate g s n) n = ⟨true, [], none, .dirty⟩)
    ∧ (∀ f, cleanCount g s < f → invFuel g f n s = invalidate g s n)
    ∧ (∀ v, Relation.ReflTransGen (fun a b => b ∈ g.children a) n v →
        ((invalidate g s n) v).dirty = true) := by
  refine ⟨?_, ?_, ?_, ?_⟩
  · intro hd
    unfold invalidate
    rw [invFuel_succ, if_pos hd]
  · intro hd
    unfold invalidate
    rw [invFuel_succ, if_neg (by simp [hd])]
    rw [invFold_preserves_dirty_record g _ _ _ n (by simp [markDirty])]
    simp [markDirty]
  · intro f hf
    exact invFuel_stable g hclosed (cleanCount g s) f (cleanCount g s + 1) n s
      hn le_rfl hf (by omega)
  · have hfold : invFold g (cleanCount g s + 1) [n] s = invalidate g s n := rfl
    have hw := invFold_wave g hclosed (cleanCount g s) (cleanCount g s + 1)
      [n] [] s le_rfl (by omega)
      (by intro c hc; rcases List.mem_cons.mp hc with rfl | hc
          · exact hn
          · cases hc)
      (by intro u hu v hv hdu; exact Or.inl (hdc u hu v hv hdu))
    rcases hw with ⟨ha, hb⟩
    rw [hfold] at ha hb
    intro v hpath
    have hI : ∀ u ∈ g.nodes, ∀ v ∈ g.children u,
        ((invalidate g s n) u).dirty = true →
        ((invalidate g s n) v).dirty = true := by
      intro u hu v hv hdu
      rcases ha u hu v hv hdu with h | h
      · exact h
      · cases h
    exact (dirty_along_path g hclosed _ hI n hn
      (hb n (List.mem_cons_self n [])) v hpath).2

/-- C2 (witness): the invalidation theorem applied to the concrete
diamond-shaped all-clean project at node 0. -/
theorem invalidate_correct_witness :
    ((invWitnessS 0).dirty = true →
      invalidate invWitnessG invWitnessS 0 = invWitnessS)
    ∧ ((invWitnessS 0).dirty = false →
      (invalidate invWitnessG invWitnessS 0) 0 = ⟨true, [], none, .dirty⟩)
    ∧ (∀ f, cleanCount invWitnessG invWitnessS < f →
      invFuel invWitnessG f 0 invWitnessS = invalidate invWitnessG invWitnessS 0)
    ∧ (∀ v, Relation.ReflTransGen
        (fun a b => b ∈ invWitnessG.children a) 0 v →
        ((invalidate invWitnessG invWitnessS 0) v).dirty = true) :=
  invalidate_correct invWitnessG invWitnessS 0
    (by unfold InvGraph.Closed; decide) (by decide) (by decide)

/-! ## Execution planner graph view (`core/engine.py`)

`topological_sort` and `identify_branches` read: the project's node list,
each node's `id` and `_is_dirty` flag, the ids of the nodes connected to
its output sockets (flattened over sockets in order), and symmetrically for
input sockets. -/

structure ENode where
  id : Nat
  dirty : Bool
  outConns : List Nat
  inConns : List Nat
  deriving DecidableEq, Repr

/-- Ancestor-set accumulation of `identify_branches` (`core/engine.py`
lines 97–105): each node's set starts as `{node.id}` and unions the sets of
parents already present in the accumulator (for a topologically sorted
input, all parents).  Python `set`s are embedded as duplicate-free lists
with `List.union` / `List.inter`; only set-respecting operations (union,
intersection emptiness, membership) are performed on them. -/
def buildAncestors : List ENode → List (Nat × List Nat) → List (Nat × List Nat)
  | [], acc => acc
  | n :: rest, acc =>
      let anc := n.inConns.foldl
        (fun a p => match acc.lookup p with
          | some s => a ∪ s
          | none => a) [n.id]
      buildAncestors rest (acc ++ [(n.id, anc)])

/-- The greedy grouping step of `identify_branches` (lines 111–121): append
the node to the *first* existing branch whose accumulated ancestor set
intersects the node's, else open a new branch. -/
def insertBranch (aset : List Nat) (nid : Nat) :
    List (List Nat × List Nat) → List (List Nat × List Nat)
  | [] => [([nid], aset)]
  | (br, banc) :: rest =>
      if banc ∩ aset ≠ [] then (br ++ [nid], banc ∪ aset) :: rest
      else (br, banc) :: insertBranch aset nid rest

/-- `ExecutionPlanner.identify_branches` (`core/engine.py` lines 86–123),
returning branches as lists of node ids. -/
def identifyBranches (sorted_nodes : List ENode) : List (List Nat) :=
  let ancs := buildAncestors sorted_nodes []
  (sorted_nodes.foldl
    (fun brs n =>
      match ancs.lookup n.id with
      | some aset => insertBranch aset n.id brs
      | none => brs)
    []).map Prod.fst

/-- The two-roots fan-in graph `0 → 2 ← 1` in topologically sorted order. -/
def faninNodes : List ENode :=
  [⟨0, true, [2], []⟩, ⟨1, true, [2], []⟩, ⟨2, true, [], [0, 1]⟩]

/-- C1: evaluating `identify_branches` on the fan-in graph `0 → 2 ← 1`.
Node 1 is an ancestor of node 2 and their ancestor sets intersect
(`{1} ∩ {0,1,2} = {1}`), yet they are placed in different branches
`[[0,2],[1]]`, whose ancestor sets `{0,1,2}` and `{1}` are not disjoint —
the greedy first-match merge never re-merges previously separate branches
bridged by a later fan-in node. -/
theorem identifyBranches_fanin_not_coarsest :
    identifyBranches faninNodes = [[0, 2], [1]]
    ∧ (buildAncestors faninNodes []).lookup 1 = some [1]
    ∧ (buildAncestors faninNodes []).lookup 2 = some [2, 0, 1] := by
  refine ⟨by decide, by decide, by decide⟩

/-! ## Pull computation (`core/project.py`, `Node.compute`, lines 210–263)

The state carries, per node id: the dirty flag, the cached-outputs map, the
last error and the node state, plus the `_injected_inputs` map consumed by
composite wrapping (absent attribute ≡ empty map).  The static part carries,
per node id: the input sockets (name plus connected output sockets as
`(owning node id, socket name)` pairs), the current parameter values and the
operation's `execute` (exceptions as `Except.error`).  `DataWrapper.validate`
of the embedded payloads is the base implementation, which always returns
`True`, so the output-validation loop is a no-op here.  The upstream
recursion is embedded with fuel. -/

abbrev Outputs := List (String × PyVal)

structure CInSock where
  name : String
  conn : List (Nat × String)

structure CNodeDef where
  inSocks : List CInSock
  params : Outputs
  exec : Outputs → Outputs → Except String Outputs

structure CNodeRt where
  dirty : Bool
  cache : Outputs
  error : Option String
  state : NodeState
  injected : Outputs

abbrev CSt := Nat → CNodeRt

abbrev CGraph := Nat → CNodeDef

def setNode (s : CSt) (n : Nat) (r : CNodeRt) : CSt :=
  fun v => if v = n then r else s v

/-- `dict.pop(key)`'s removal effect on an association list. -/
def removeKey (l : Outputs) (k : String) : Outputs :=
  l.filter (fun kv => kv.1 ≠ k)

/-- The input-gathering loop of `Node.compute` (lines 227–243), parameterized
by the recursive compute call `cmp` for upstream pulls.  Returns the updated
state, the log of executed node ids, and either the gathered
`input_values` or the first raised error. -/
def gatherGo (cmp : Nat → CSt → CSt × List Nat × Except String Outputs)
    (n : Nat) : List CInSock → CSt → Outputs →
    CSt × List Nat × Except String Outputs
  | [], s, acc => (s, [], .ok acc)
  | sock :: rest, s, acc =>
    match List.lookup sock.name (s n).injected with
    | some v =>
        let s' := setNode s n
          { s n with injected := removeKey (s n).injected sock.name }
        gatherGo cmp n rest s' (acc ++ [(sock.name, v)])
    | none =>
      match sock.conn with
      | [] => gatherGo cmp n rest s acc
      | (src, srcSock) :: _ =>
        match cmp src s with
        | (s2, log, .error e) => (s2, log, .error e)
        | (s2, log, .ok upstream) =>
          match List.lookup srcSock upstream with
          | some v =>
            match gatherGo cmp n rest s2 (acc ++ [(sock.name, v)]) with
            | (s3, log2, r) => (s3, log ++ log2, r)
          | none =>
            (s2, log, .error ("Upstream node did not produce output " ++ srcSock))

/-- `Node.compute` with fuel: immediate cache return when clean; otherwise
`COMPUTING`, gather inputs (recursively pulling upstream), gather parameter
values, execute, cache outputs and go `VALID` on success, record the error
and go `ERROR` (re-raising) on failure.  Also returns the list of node ids
whose operation `execute` was invoked. -/
def computeF (g : CGraph) : Nat → Nat → CSt → CSt × List Nat × Except String Outputs
  | 0, _, s => (s, [], .error "fuel exhausted")
  | fuel + 1, n, s =>
    if !(s n).dirty then (s, [], .ok (s n).cache)
    else
      let s1 := setNode s n { s n with state := .computing }
      match gatherGo (computeF g fuel) n (g n).inSocks s1 [] with
      | (s2, log, .error e) =>
          (setNode s2 n { s2 n with error := some e, state := .error },
            log, .error e)
      | (s2, log, .ok input_values) =>
          match (g n).exec input_values (g n).params with
          | .error e =>
              (setNode s2 n { s2 n with error := some e, state := .error },
                log ++ [n], .error e)
          | .ok outs =>
              (setNode s2 n
                { s2 n with cache := outs, dirty := false, state := .valid },
                log ++ [n], .ok outs)

/-- C9: `compute()` on a clean node returns the cached output map
immediately: the state of every node is untouched, no operation `execute`
is invoked, and the cached map is returned; a second call returns the same
cached map again. -/
theorem compute_clean_memoizing (g : CGraph) (s : CSt) (n : Nat) (f : Nat)
    (h : (s n).dirty = false) :
    computeF g (f + 1) n s = (s, [], .ok (s n).cache)
    ∧ computeF g (f + 1) n (computeF g (f + 1) n s).1 =
        (s, [], .ok (s n).cache) := by
  have h1 : computeF g (f + 1) n s = (s, [], .ok (s n).cache) := by
    simp [computeF, h]
  exact ⟨h1, by rw [h1]; exact h1⟩

/-- C9 (witness): the memoization theorem applied to a concrete clean node
holding a cached value. -/
theorem compute_clean_memoizing_witness :
    (computeF (fun _ => ⟨[], [], fun _ _ => .ok []⟩) 1 0
        (fun _ => ⟨false, [("out", .raw (.num 7))], none, .valid, []⟩) =
      ((fun _ => ⟨false, [("out", .raw (.num 7))], none, .valid, []⟩), [],
        .ok [("out", .raw (.num 7))]))
    ∧ (computeF (fun _ => ⟨[], [], fun _ _ => .ok []⟩) 1 0
        (computeF (fun _ => ⟨[], [], fun _ _ => .ok []⟩) 1 0
          (fun _ => ⟨false, [("out", .raw (.num 7))], none, .valid, []⟩)).1 =
      ((fun _ => ⟨false, [("out", .raw (.num 7))], none, .valid, []⟩), [],
        .ok [("out", .raw (.num 7))])) :=
  compute_clean_memoizing (fun _ => ⟨[], [], fun _ _ => .ok []⟩)
    (fun _ => ⟨false, [("out", .raw (.num 7))], none, .valid, []⟩) 0 0 rfl

/-! ## Composite and iterator nodes (`core/composite.py`)

The composite's sub-project is a `CGraph`/`CSt` of its own; the composite
node's and the iterator node's own runtime records are carried separately.
The iterator's three parameters (`max_iterations`, `convergence_tolerance`,
`mode`) are embedded by their current values. -/

structure CompositeDef where
  subGraph : CGraph
  subNodes : List Nat
  exposedInputs : List (Nat × String)
  exposedOutputs : List (Nat × String)
  extInSocks : List CInSock

structure CompRt where
  rt : CNodeRt
  sub : CSt

structure IterDef where
  body : CompositeDef
  maxIter : Nat
  tol : ℚ
  mode : String

structure IterRt where
  rt : CNodeRt
  body : CompRt

/-- Python dict assignment `d[k] = v` on an association list. -/
def setKey : Outputs → String → PyVal → Outputs
  | [], k, v => [(k, v)]
  | (k', v') :: rest, k, v =>
    if k' = k then (k, v) :: rest else (k', v') :: setKey rest k v

/-- `CompositeNode.set_inputs` (`core/composite.py` lines 112–122): inject
each supplied value directly into the exposed internal node's cache and mark
that node clean/`VALID`. -/
def setInputs (cd : CompositeDef) (sub : CSt) (values : Outputs) : CSt :=
  cd.exposedInputs.foldl
    (fun sub p =>
      match values.lookup p.2 with
      | some v =>
        let r := sub p.1
        setNode sub p.1
          { r with cache := setKey r.cache p.2 v, dirty := false, state := .valid }
      | none => sub) sub

/-- `CompositeNode.invalidate_all` (lines 124–129): mark every node of the
sub-project dirty and clear its cache. -/
def invalidateAll (cd : CompositeDef) (sub : CSt) : CSt :=
  cd.subNodes.foldl
    (fun sub nid =>
      let r := sub nid
      setNode sub nid { r with dirty := true, cache := [], state := .dirty }) sub

/-- The external-input gathering loop shared by `CompositeNode.compute`
(lines 139–147) and `IteratorNode._gather_inputs` (lines 253–262): for each
input socket with a connection, pull the upstream node and record the named
output when present (a missing name is silently skipped here). -/
def gatherExt (extG : CGraph) (fuel : Nat) :
    List CInSock → CSt → Outputs → CSt × List Nat × Except String Outputs
  | [], extSt, acc => (extSt, [], .ok acc)
  | sock :: rest, extSt, acc =>
    match sock.conn with
    | [] => gatherExt extG fuel rest extSt acc
    | (src, srcSock) :: _ =>
      match computeF extG fuel src extSt with
      | (s2, log, .error e) => (s2, log, .error e)
      | (s2, log, .ok upstream) =>
        match upstream.lookup srcSock with
        | some v =>
          match gatherExt extG fuel rest s2 (acc ++ [(sock.name, v)]) with
          | (s3, log2, r) => (s3, log ++ log2, r)
        | none =>
          match gatherExt extG fuel rest s2 acc with
          | (s3, log2, r) => (s3, log ++ log2, r)

/-- The exposed-output collection loop of `CompositeNode.compute`
(lines 151–155): pull each exposed internal node and record the named
output when present. -/
def computeExposed (cd : CompositeDef) (fuel : Nat) :
    List (Nat × String) → CSt → Outputs → CSt × List Nat × Except String Outputs
  | [], sub, acc => (sub, [], .ok acc)
  | (nid, sname) :: rest, sub, acc =>
    match computeF cd.subGraph fuel nid sub with
    | (sub2, log, .error e) => (sub2, log, .error e)
    | (sub2, log, .ok result) =>
      let acc' := match result.lookup sname with
        | some v => acc ++ [(sname, v)]
        | none => acc
      match computeExposed cd fuel rest sub2 acc' with
      | (sub3, log2, r) => (sub3, log ++ log2, r)

/-- `CompositeNode.compute` (lines 131–165). -/
def compositeCompute (cd : CompositeDef) (extG : CGraph) (fuel : Nat)
    (extSt : CSt) (st : CompRt) :
    CSt × CompRt × List Nat × Except String Outputs :=
  if !st.rt.dirty then (extSt, st, [], .ok st.rt.cache)
  else
    let st1 : CompRt := { st with rt := { st.rt with state := .computing } }
    match gatherExt extG fuel cd.extInSocks extSt [] with
    | (ext2, log, .error e) =>
        let failRt := { st1.rt with error := some e, state := NodeState.error }
        (ext2, { st1 with rt := failRt }, log, .error e)
    | (ext2, log, .ok external_inputs) =>
        let sub1 := setInputs cd st1.sub external_inputs
        match computeExposed cd fuel cd.exposedOutputs sub1 [] with
        | (sub2, log2, .error e) =>
            let failRt := { st1.rt with error := some e, state := NodeState.error }
            (ext2, { rt := failRt, sub := sub2 }, log ++ log2, .error e)
        | (sub2, log2, .ok outputs) =>
            let okRt := { st1.rt with cache := outputs, dirty := false, state := NodeState.valid }
            (ext2, { rt := okRt, sub := sub2 }, log ++ log2, .ok outputs)

/-- The `for _i in range(max_iter)` loop of `IteratorNode.compute`
(lines 282–290): feed (original inputs on iteration 1, previous outputs
after), `invalidate_all`, compute the body, and in `"converge"` mode stop
once `_has_converged` holds. -/
def iterLoop (it : IterDef) (extG : CGraph) (fuel : Nat)
    (extInputs : Outputs) :
    Nat → Option Outputs → CSt → CompRt → List Nat → Outputs →
    CSt × CompRt × List Nat × Except String Outputs
  | 0, _, extSt, st, log, result => (extSt, st, log, .ok result)
  | k + 1, prev, extSt, st, log, result =>
    let feed := match prev with
      | none => extInputs
      | some p => p
    let st1 : CompRt := { st with sub := setInputs it.body st.sub feed }
    let st2 : CompRt := { st1 with sub := invalidateAll it.body st1.sub }
    match compositeCompute it.body extG fuel extSt st2 with
    | (ext2, st3, log2, .error e) => (ext2, st3, log ++ log2, .error e)
    | (ext2, st3, log2, .ok result') =>
      match prev with
      | some p =>
        if it.mode = "converge" ∧ hasConverged p result' it.tol then
          (ext2, st3, log ++ log2, .ok result')
        else
          iterLoop it extG fuel extInputs k (some result') ext2 st3
            (log ++ log2) result'
      | none =>
          iterLoop it extG fuel extInputs k (some result') ext2 st3
            (log ++ log2) result'

/-- `IteratorNode.compute` (lines 264–300).  `_` below ignores `result`'s
initial `{}`. -/
def iteratorCompute (it : IterDef) (extG : CGraph) (fuel : Nat)
    (extSt : CSt) (st : IterRt) :
    CSt × IterRt × List Nat × Except String Outputs :=
  if !st.rt.dirty then (extSt, st, [], .ok st.rt.cache)
  else
    let st1 : IterRt := { st with rt := { st.rt with state := .computing } }
    match gatherExt extG fuel it.body.extInSocks extSt [] with
    | (ext2, log, .error e) =>
        let failRt := { st1.rt with error := some e, state := NodeState.error }
        (ext2, { st1 with rt := failRt }, log, .error e)
    | (ext2, log, .ok external_inputs) =>
      match iterLoop it extG fuel external_inputs it.maxIter none ext2
          st1.body [] [] with
      | (ext3, body3, log2, .error e) =>
          let failRt := { st1.rt with error := some e, state := NodeState.error }
          (ext3, { rt := failRt, body := body3 }, log ++ log2, .error e)
      | (ext3, body3, log2, .ok result) =>
          let okRt := { st1.rt with cache := result, dirty := false, state := NodeState.valid }
          (ext3, { rt := okRt, body := body3 }, log ++ log2, .ok result)

/-- The `CounterOp` of the repository's own
`tests/unit/test_phase1.py::test_fixed_count_iterations`: one input socket
`x` (unconnected inside the sub-project), one output `x`, incrementing its
input (default 0) by one. -/
def counterOp : CNodeDef :=
  ⟨[⟨"x", []⟩], [],
    fun inputs _ =>
      .ok [("x", .wrapper (.num
        ((match inputs.lookup "x" with
          | some v =>
            match v.unwrap with
            | .num q => q
            | .text _ => 0
          | none => 0) + 1)))]⟩

/-- The composite body wrapping the counter node (node id 0), exposing its
`x` input and `x` output; the body's own input socket has no upstream
connection. -/
def counterBody : CompositeDef :=
  ⟨(fun _ => counterOp), [0], [(0, "x")], [(0, "x")], [⟨"x", []⟩]⟩

/-- `IteratorNode(body, max_iter=5, mode="fixed_count")`. -/
def counterIter : IterDef := ⟨counterBody, 5, 1 / 1000000, "fixed_count"⟩

/-- Freshly constructed node runtime: dirty with no cache (`Node.__init__`:
`state = IDLE`, `_is_dirty = True`). -/
def freshRt : CNodeRt := ⟨true, [], none, .idle, []⟩

/-- C4: evaluating `IteratorNode.compute` in `"fixed_count"` mode with
`max_iterations = 5` on the counter body.  The loop body runs five times,
but `invalidate_all` never marks the body *node* itself dirty, so from the
second iteration on `body.compute()` returns its cached result immediately:
the inner operation executes exactly once (`log = [0]`) and the final value
is 1, not 5 — contradicting the claim (and the repository's own test, which
asserts five executions). -/
theorem iterator_fixed_count_eval :
    (iteratorCompute counterIter (fun _ => counterOp) 5
      (fun _ => freshRt) ⟨freshRt, freshRt, fun _ => freshRt⟩).2.2.1 = [0]
    ∧ (iteratorCompute counterIter (fun _ => counterOp) 5
      (fun _ => freshRt) ⟨freshRt, freshRt, fun _ => freshRt⟩).2.2.2 =
      .ok [("x", .wrapper (.num 1))] := by
  refine ⟨rfl, ?_⟩
  have h : (iteratorCompute counterIter (fun _ => counterOp) 5
      (fun _ => freshRt) ⟨freshRt, freshRt, fun _ => freshRt⟩).2.2.2 =
      .ok [("x", .wrapper (.num (0 + 1)))] := rfl
  rw [h]
  norm_num

/-! ## Socket connection bookkeeping (`core/project.py`, `Socket`)

The full `SocketType` grammar of `core/types.py` (concrete / union / any)
with its recursive `accepts`; `List.attach` below is a termination artifact,
the computed value is the plain `any` of the source. -/

inductive SType where
  | concrete (c : ConcreteType)
  | union (ts : List SType)
  | anyT

/-- `SocketType.accepts` over the three-variant grammar
(`core/types.py` lines 36–84). -/
def SType.accepts : SType → SType → Bool
  | .concrete a, .concrete b => a.acceptsC b
  | .concrete a, .union ts => ts.attach.any (fun t => SType.accepts (.concrete a) t.1)
  | .concrete _, .anyT => true
  | .union ts, o => ts.attach.any (fun t => SType.accepts t.1 o)
  | .anyT, _ => true
termination_by a b => sizeOf a + sizeOf b
decreasing_by
  · have := List.sizeOf_lt_of_mem t.2
    simp only [SType.union.sizeOf_spec]
    omega
  · have := List.sizeOf_lt_of_mem t.2
    simp only [SType.union.sizeOf_spec]
    omega

/-- Static data of a socket: owning node, name, type, direction. -/
structure SockInfo where
  node : Nat
  name : String
  stype : SType
  is_input : Bool

/-- Static structure: project node ids, socket ids, socket data. -/
structure SockGraph where
  nodes : List Nat
  sockets : List Nat
  info : Nat → SockInfo

/-- Mutable state: each socket's connection list (socket ids) and the
per-node runtime records (touched by the `invalidate` calls the socket
operations trigger). -/
structure SockSt where
  conns : Nat → List Nat
  nodeSt : InvSt

def updConns (conns : Nat → List Nat) (k : Nat) (l : List Nat) :
    Nat → List Nat :=
  fun x => if x = k then l else conns x

/-- The downstream-node map induced by the current connections: for node
`n`, the owners of the sockets connected to `n`'s output sockets (what
`Node.invalidate` traverses). -/
def childrenMap (g : SockGraph) (conns : Nat → List Nat) : Nat → List Nat :=
  fun n =>
    ((g.sockets.filter
      (fun sid => (g.info sid).node = n ∧ (g.info sid).is_input = false)).flatMap
      (fun sid => (conns sid).map (fun t => (g.info t).node)))

def invGraphOf (g : SockGraph) (conns : Nat → List Nat) : InvGraph :=
  ⟨g.nodes, childrenMap g conns⟩

def doInvalidate (g : SockGraph) (st : SockSt) (n : Nat) : SockSt :=
  { st with nodeSt := invalidate (invGraphOf g st.conns) st.nodeSt n }

/-- `Socket.disconnect` (`core/project.py` lines 129–139): remove each side
from the other's list (the `if ... in ...` guard is `List.erase`'s no-op on
absence), then invalidate the input side's owning node. -/
def Socket.disconnect (g : SockGraph) (st : SockSt) (a b : Nat) : SockSt :=
  let c1 := updConns st.conns a ((st.conns a).erase b)
  let c2 := updConns c1 b ((c1 b).erase a)
  let st1 : SockSt := { st with conns := c2 }
  let inval := if (g.info a).is_input then (g.info a).node else (g.info b).node
  doInvalidate g st1 inval

/-- `Socket.disconnect_all` (lines 141–145): iterate over a copy of the
connection list, disconnecting each. -/
def Socket.disconnect_all (g : SockGraph) (st : SockSt) (a : Nat) : SockSt :=
  (st.conns a).foldl (fun acc b => Socket.disconnect g acc a b) st

/-- `Socket.connect_to` (lines 104–127): direction check, type check,
severing of the target's existing connection, bidirectional append,
downstream invalidation.  Raises are `Except.error` with the state
unchanged (the source raises before any mutation). -/
def Socket.connect_to (g : SockGraph) (st : SockSt) (selfS otherS : Nat) :
    SockSt × Except String Unit :=
  if (g.info selfS).is_input = (g.info otherS).is_input then
    (st, .error "Cannot connect Input-to-Input or Output-to-Output")
  else
    let source := if (g.info selfS).is_input then otherS else selfS
    let target := if (g.info selfS).is_input then selfS else otherS
    if !((g.info target).stype.accepts (g.info source).stype) then
      (st, .error "Type Mismatch")
    else
      let st1 := if (st.conns target).length > 0
        then Socket.disconnect_all g st target else st
      let c1 := updConns st1.conns source (st1.conns source ++ [target])
      let c2 := updConns c1 target (c1 target ++ [source])
      (doInvalidate g { st1 with conns := c2 } (g.info target).node, .ok ())

/-- `next((s for s in node.xxx_sockets if s.name == name), None)` of
`Node.get_output_socket` / `get_input_socket` (lines 177–181), with the
node's socket list realized as the id-ordered sockets owned by the node. -/
def findSocket (g : SockGraph) (node : Nat) (nm : String) (inp : Bool) :
    Option Nat :=
  (g.sockets.filter
    (fun sid => (g.info sid).node = node ∧ (g.info sid).is_input = inp)).find?
    (fun sid => (g.info sid).name = nm)

/-- `Project.connect` (lines 288–306): name lookups (raising `KeyError` on
a miss) followed by `source_sock.connect_to(target_sock)`. -/
def Project.connect (g : SockGraph) (st : SockSt)
    (srcNode : Nat) (sname : String) (tgtNode : Nat) (tname : String) :
    SockSt × Except String Unit :=
  match findSocket g srcNode sname false with
  | none => (st, .error ("Output socket not found: " ++ sname))
  | some ss =>
    match findSocket g tgtNode tname true with
    | none => (st, .error ("Input socket not found: " ++ tname))
    | some ts => Socket.connect_to g st ss ts

/-- `Project.remove_node` (lines 279–286): disconnect every socket of the
node, then drop the node from the project's node list. -/
def Project.remove_node (g : SockGraph) (st : SockSt) (n : Nat) :
    SockSt × List Nat :=
  if n ∈ g.nodes then
    let own := g.sockets.filter (fun sid => (g.info sid).node = n)
    let st1 := own.foldl (fun acc sid => Socket.disconnect_all g acc sid) st
    (st1, g.nodes.erase n)
  else (st, g.nodes)

/-- Symmetric bookkeeping: each side's list references the other equally
often. -/
def Sym (conns : Nat → List Nat) : Prop :=
  ∀ s t, (conns s).count t = (conns t).count s

/-- Connections join an input socket to an output socket. -/
def Dir (g : SockGraph) (conns : Nat → List Nat) : Prop :=
  ∀ s, ∀ t ∈ conns s, (g.info t).is_input = !(g.info s).is_input

/-- The claim's invariant: an input socket holds at most one connection. -/
def AtMostOne (g : SockGraph) (conns : Nat → List Nat) : Prop :=
  ∀ s, (g.info s).is_input = true → (conns s).length ≤ 1

/-- The socket-bookkeeping well-formedness invariant. -/
def WF (g : SockGraph) (conns : Nat → List Nat) : Prop :=
  Sym conns ∧ Dir g conns ∧ AtMostOne g conns

lemma WF_of_funext {g : SockGraph} {c c' : Nat → List Nat}
    (h : ∀ x, c' x = c x) (hwf : WF g c) : WF g c' := by
  have : c' = c := funext h
  rw [this]; exact hwf

lemma self_not_mem_conns {g : SockGraph} {conns : Nat → List Nat}
    (hdir : Dir g conns) (a : Nat) : a ∉ conns a := by
  intro hmem
  have := hdir a a hmem
  cases h : (g.info a).is_input <;> rw [h] at this <;> cases this

lemma updConns_same (c : Nat → List Nat) (k : Nat) (l : List Nat) :
    updConns c k l k = l := by
  simp [updConns]

lemma updConns_other (c : Nat → List Nat) (k : Nat) (l : List Nat) (x : Nat)
    (h : x ≠ k) : updConns c k l x = c x := by
  simp [updConns, h]

lemma disconnect_conns_self {g : SockGraph} {st : SockSt}
    (hdir : Dir g st.conns) (a : Nat) :
    ∀ x, (Socket.disconnect g st a a).conns x = st.conns x := by
  intro x
  have hna : a ∉ st.conns a := self_not_mem_conns hdir a
  have h1 : (st.conns a).erase a = st.conns a := List.erase_of_not_mem hna
  show updConns (updConns st.conns a ((st.conns a).erase a)) a
      ((updConns st.conns a ((st.conns a).erase a) a).erase a) x = st.conns x
  rw [updConns_same, h1, h1]
  by_cases hx : x = a
  · subst hx
    rw [updConns_same]
  · rw [updConns_other _ _ _ _ hx, updConns_other _ _ _ _ hx]

lemma disconnect_conns_ne {g : SockGraph} {st : SockSt} {a b : Nat}
    (hab : a ≠ b) :
    ∀ x, (Socket.disconnect g st a b).conns x =
      if x = a then (st.conns a).erase b
      else if x = b then (st.conns b).erase a
      else st.conns x := by
  intro x
  show updConns (updConns st.conns a ((st.conns a).erase b)) b
      ((updConns st.conns a ((st.conns a).erase b) b).erase a) x = _
  rw [updConns_other _ _ _ _ (Ne.symm hab)]
  by_cases hxa : x = a
  · subst hxa
    rw [if_pos rfl, updConns_other _ _ _ _ hab, updConns_same]
  · by_cases hxb : x = b
    · subst hxb
      rw [if_neg hxa, if_pos rfl, updConns_same]
    · rw [if_neg hxa, if_neg hxb, updConns_other _ _ _ _ hxb,
        updConns_other _ _ _ _ hxa]

lemma count_erase_eq {t b : Nat} (l : List Nat) (h : b ≠ t) :
    (l.erase b).count t = l.count t := by
  rw [List.count_erase]
  simp [beq_iff_eq, h]

lemma count_erase_self (t : Nat) (l : List Nat) :
    (l.erase t).count t = l.count t - 1 := by
  rw [List.count_erase]
  simp

lemma disconnect_wf {g : SockGraph} {st : SockSt} (a b : Nat)
    (hwf : WF g st.conns) : WF g (Socket.disconnect g st a b).conns := by
  rcases hwf with ⟨hsym, hdir, hone⟩
  by_cases hab : a = b
  · subst hab
    exact WF_of_funext (disconnect_conns_self hdir a) ⟨hsym, hdir, hone⟩
  · have hc := @disconnect_conns_ne g st a b hab
    refine ⟨?_, ?_, ?_⟩
    · intro s t
      by_cases hsa : s = a
      · by_cases hta : t = a
        · rw [hsa, hta]
        · by_cases htb : t = b
          · rw [hsa, htb, hc a, hc b, if_pos rfl, if_neg (Ne.symm hab),
              if_pos rfl, count_erase_self, count_erase_self, hsym a b]
          · rw [hsa, hc a, hc t, if_pos rfl, if_neg hta, if_neg htb,
              count_erase_eq _ (fun h => htb h.symm), hsym a t]
      · by_cases hsb : s = b
        · by_cases hta : t = a
          · rw [hsb, hta, hc b, hc a, if_neg (Ne.symm hab), if_pos rfl,
              if_pos rfl, count_erase_self, count_erase_self, hsym b a]
          · by_cases htb : t = b
            · rw [hsb, htb]
            · rw [hsb, hc b, hc t, if_neg (Ne.symm hab), if_pos rfl,
                if_neg hta, if_neg htb,
                count_erase_eq _ (fun h => hta h.symm), hsym b t]
        · by_cases hta : t = a
          · rw [hta, hc s, hc a, if_neg hsa, if_neg hsb, if_pos rfl,
              count_erase_eq _ (fun h => hsb h.symm), hsym s a]
          · by_cases htb : t = b
            · rw [htb, hc s, hc b, if_neg hsa, if_neg hsb,
                if_neg (Ne.symm hab), if_pos rfl,
                count_erase_eq _ (fun h => hsa h.symm), hsym s b]
            · rw [hc s, hc t, if_neg hsa, if_neg hsb, if_neg hta, if_neg htb,
                hsym s t]
    · intro s t hmem
      rw [hc s] at hmem
      split_ifs at hmem with h1 h2
      · subst h1; exact hdir s t (List.mem_of_mem_erase hmem)
      · subst h2; exact hdir s t (List.mem_of_mem_erase hmem)
      · exact hdir s t hmem
    · intro s hin
      rw [hc s]
      split_ifs with h1 h2
      · subst h1
        exact le_trans ((List.erase_sublist _ _).length_le) (hone s hin)
      · subst h2
        exact le_trans ((List.erase_sublist _ _).length_le) (hone s hin)
      · exact hone s hin

lemma disconnect_all_aux {g : SockGraph} (a : Nat) :
    ∀ (l : List Nat) (st : SockSt), WF g st.conns → st.conns a = l →
      WF g (l.foldl (fun acc b => Socket.disconnect g acc a b) st).conns
      ∧ (l.foldl (fun acc b => Socket.disconnect g acc a b) st).conns a = [] := by
  intro l
  induction l with
  | nil => intro st hwf hca; exact ⟨hwf, hca⟩
  | cons b rest ih =>
    intro st hwf hca
    have hba : b ≠ a := by
      intro h
      subst h
      exact self_not_mem_conns hwf.2.1 b (hca ▸ List.mem_cons_self b rest)
    have hwf1 := @disconnect_wf g st a b hwf
    have hca1 : (Socket.disconnect g st a b).conns a = rest := by
      rw [disconnect_conns_ne (Ne.symm hba), if_pos rfl, hca,
        List.erase_cons_head]
    exact ih (Socket.disconnect g st a b) hwf1 hca1

lemma disconnect_all_wf {g : SockGraph} {st : SockSt} (a : Nat)
    (hwf : WF g st.conns) :
    WF g (Socket.disconnect_all g st a).conns
    ∧ (Socket.disconnect_all g st a).conns a = [] :=
  disconnect_all_aux a (st.conns a) st hwf rfl

lemma count_append_single (t y : Nat) (l : List Nat) :
    (l ++ [y]).count t = l.count t + if t = y then 1 else 0 := by
  rw [List.count_append]
  by_cases h : t = y
  · subst h; simp
  · simp [List.count_singleton', h]

lemma connect_to_ok {g : SockGraph} {st : SockSt} {selfS otherS src tgt : Nat}
    (hwf : WF g st.conns)
    (hne : ¬ (g.info selfS).is_input = (g.info otherS).is_input)
    (hsrc : src = if (g.info selfS).is_input then otherS else selfS)
    (htgt : tgt = if (g.info selfS).is_input then selfS else otherS)
    (htype : (g.info tgt).stype.accepts (g.info src).stype = true) :
    (Socket.connect_to g st selfS otherS).2 = .ok ()
    ∧ (Socket.connect_to g st selfS otherS).1.conns tgt = [src]
    ∧ WF g (Socket.connect_to g st selfS otherS).1.conns := by
  have hti : (g.info tgt).is_input = true := by
    rcases h : (g.info selfS).is_input with _ | _
    · rw [htgt, if_neg (by rw [h]; exact fun hc => by cases hc)]
      rcases h2 : (g.info otherS).is_input with _ | _
      · exact absurd (h.trans h2.symm) hne
      · rfl
    · rw [htgt, if_pos (by rw [h])]
      exact h
  have hsi : (g.info src).is_input = false := by
    rcases h : (g.info selfS).is_input with _ | _
    · rw [hsrc, if_neg (by rw [h]; exact fun hc => by cases hc)]
      exact h
    · rw [hsrc, if_pos (by rw [h])]
      rcases h2 : (g.info otherS).is_input with _ | _
      · rfl
      · exact absurd (h.trans h2.symm) hne
  have hts : tgt ≠ src := by
    intro he
    rw [he, hsi] at hti
    cases hti
  have hst : src ≠ tgt := Ne.symm hts
  have hwf1 : WF g (if (st.conns tgt).length > 0
      then Socket.disconnect_all g st tgt else st).conns := by
    split
    · exact (disconnect_all_wf tgt hwf).1
    · exact hwf
  have h1t : (if (st.conns tgt).length > 0
      then Socket.disconnect_all g st tgt else st).conns tgt = [] := by
    split
    · exact (disconnect_all_wf tgt hwf).2
    · rename_i hlen
      have : (st.conns tgt).length = 0 := by omega
      exact List.eq_nil_of_length_eq_zero this
  set st1 := if (st.conns tgt).length > 0
    then Socket.disconnect_all g st tgt else st with hst1
  have hunfold : Socket.connect_to g st selfS otherS =
      (doInvalidate g
        ⟨updConns (updConns st1.conns src (st1.conns src ++ [tgt])) tgt
          ((updConns st1.conns src (st1.conns src ++ [tgt]) tgt) ++ [src]),
         st1.nodeSt⟩
        (g.info tgt).node, .ok ()) := by
    unfold Socket.connect_to
    rw [if_neg hne, ← hsrc, ← htgt]
    simp only [htype, Bool.not_true, Bool.false_eq_true, if_false, ← hst1]
  rcases hwf1 with ⟨hsym1, hdir1, hone1⟩
  have hconns : ∀ x, (Socket.connect_to g st selfS otherS).1.conns x =
      if x = tgt then [src]
      else if x = src then st1.conns src ++ [tgt]
      else st1.conns x := by
    intro x
    rw [hunfold]
    show updConns (updConns st1.conns src (st1.conns src ++ [tgt])) tgt
      ((updConns st1.conns src (st1.conns src ++ [tgt]) tgt) ++ [src]) x = _
    rw [updConns_other _ _ _ _ hts, h1t]
    by_cases hx : x = tgt
    · subst hx
      rw [if_pos rfl, updConns_same]
      rfl
    · rw [if_neg hx, updConns_other _ _ _ _ hx]
      by_cases hx2 : x = src
      · subst hx2
        rw [if_pos rfl, updConns_same]
      · rw [if_neg hx2, updConns_other _ _ _ _ hx2]
  have hcnt0 : (st1.conns src).count tgt = 0 := by
    have := hsym1 src tgt
    rw [h1t] at this
    simpa using this
  refine ⟨by rw [hunfold], by rw [hconns tgt, if_pos rfl], ?_, ?_, ?_⟩
  · intro s t
    rw [hconns s, hconns t]
    by_cases hstgt : s = tgt
    · rw [if_pos hstgt]
      by_cases httgt : t = tgt
      · rw [if_pos httgt, hstgt, httgt]
      · rw [if_neg httgt]
        by_cases htsrc : t = src
        · rw [if_pos htsrc, hstgt, htsrc, count_append_single]
          simp [List.count_singleton', hts, hcnt0]
        · rw [if_neg htsrc, hstgt]
          have : (st1.conns t).count tgt = 0 := by
            have := hsym1 t tgt
            rw [h1t] at this
            simpa using this
          rw [List.count_singleton', if_neg (fun h => htsrc h.symm), this]
    · rw [if_neg hstgt]
      by_cases hssrc : s = src
      · rw [if_pos hssrc]
        by_cases httgt : t = tgt
        · rw [if_pos httgt, hssrc, httgt, count_append_single]
          simp [List.count_singleton', hst, hcnt0]
        · rw [if_neg httgt]
          by_cases htsrc : t = src
          · rw [if_pos htsrc, hssrc, htsrc, count_append_single]
          · rw [if_neg htsrc, hssrc, count_append_single,
              if_neg (fun h => httgt h), hsym1 src t]
            omega
      · rw [if_neg hssrc]
        by_cases httgt : t = tgt
        · rw [if_pos httgt, httgt]
          have : (st1.conns s).count tgt = 0 := by
            have := hsym1 s tgt
            rw [h1t] at this
            simpa using this
          rw [this, List.count_singleton', if_neg (fun h => hssrc h.symm)]
        · rw [if_neg httgt]
          by_cases htsrc : t = src
          · rw [if_pos htsrc, htsrc, count_append_single,
              if_neg (fun h => hstgt h), hsym1 s src]
            omega
          · rw [if_neg htsrc, hsym1 s t]
  · intro s t hmem
    rw [hconns s] at hmem
    split_ifs at hmem with h1 h2
    · subst h1
      rcases List.mem_singleton.mp hmem with rfl
      rw [hsi, hti]
      rfl
    · subst h2
      rcases List.mem_append.mp hmem with hmem | hmem
      · exact hdir1 s t hmem
      · rcases List.mem_singleton.mp hmem with rfl
        rw [hti, hsi]
        rfl
    · exact hdir1 s t hmem
  · intro s hin
    rw [hconns s]
    split_ifs with h1 h2
    · simp
    · subst h2
      rw [hsi] at hin
      cases hin
    · exact hone1 s hin

lemma connect_to_wf {g : SockGraph} {st : SockSt} (selfS otherS : Nat)
    (hwf : WF g st.conns) :
    WF g (Socket.connect_to g st selfS otherS).1.conns := by
  by_cases hne : (g.info selfS).is_input = (g.info otherS).is_input
  · show WF g (if (g.info selfS).is_input = (g.info otherS).is_input
      then _ else _ : SockSt × Except String Unit).1.conns
    rw [if_pos hne]
    exact hwf
  · by_cases hacc : ((g.info (if (g.info selfS).is_input then selfS
        else otherS)).stype.accepts
        (g.info (if (g.info selfS).is_input then otherS else selfS)).stype)
      = true
    · exact (connect_to_ok hwf hne rfl rfl hacc).2.2
    · have : Socket.connect_to g st selfS otherS =
          (st, .error "Type Mismatch") := by
        unfold Socket.connect_to
        rw [if_neg hne]
        simp only [Bool.not_eq_true'] at hacc
        simp [hacc]
      rw [this]
      exact hwf

lemma project_connect_wf {g : SockGraph} {st : SockSt}
    (srcNode : Nat) (sname : String) (tgtNode : Nat) (tname : String)
    (hwf : WF g st.conns) :
    WF g (Project.connect g st srcNode sname tgtNode tname).1.conns := by
  unfold Project.connect
  rcases findSocket g srcNode sname false with _ | ss
  · exact hwf
  · rcases findSocket g tgtNode tname true with _ | ts
    · exact hwf
    · exact connect_to_wf ss ts hwf

lemma foldl_disconnect_all_wf {g : SockGraph} :
    ∀ (l : List Nat) (st : SockSt), WF g st.conns →
      WF g ((l.foldl (fun acc sid => Socket.disconnect_all g acc sid) st)).conns := by
  intro l
  induction l with
  | nil => intro st hwf; exact hwf
  | cons sid rest ih =>
    intro st hwf
    exact ih (Socket.disconnect_all g st sid) (disconnect_all_wf sid hwf).1

lemma remove_node_wf {g : SockGraph} {st : SockSt} (n : Nat)
    (hwf : WF g st.conns) :
    WF g (Project.remove_node g st n).1.conns := by
  unfold Project.remove_node
  split
  · exact foldl_disconnect_all_wf _ st hwf
  · exact hwf

/-- C10: the single-upstream-connection invariant on input sockets.  On any
well-formed socket heap (symmetric bookkeeping, input↔output edges, inputs
with at most one connection): the invariant holds for freshly built sockets
(empty connection lists); it is preserved — as part of full well-formedness
— by `Socket.connect_to`, `Socket.disconnect`, `Socket.disconnect_all`,
`Project.connect` and `Project.remove_node`; and a successful `connect_to`
onto an input socket that already holds a connection severs the old edge
first and records exactly the new one: afterwards the input's list is
`[source]` and no other socket references it. -/
theorem socket_single_connection (g : SockGraph) (st : SockSt)
    (hwf : WF g st.conns) :
    AtMostOne g (fun _ => [])
    ∧ (∀ selfS otherS, WF g (Socket.connect_to g st selfS otherS).1.conns)
    ∧ (∀ a b, WF g (Socket.disconnect g st a b).conns)
    ∧ (∀ a, WF g (Socket.disconnect_all g st a).conns)
    ∧ (∀ srcNode sname tgtNode tname,
        WF g (Project.connect g st srcNode sname tgtNode tname).1.conns)
    ∧ (∀ n, WF g (Project.remove_node g st n).1.conns)
    ∧ (∀ selfS otherS src tgt,
        ¬ (g.info selfS).is_input = (g.info otherS).is_input →
        src = (if (g.info selfS).is_input then otherS else selfS) →
        tgt = (if (g.info selfS).is_input then selfS else otherS) →
        (g.info tgt).stype.accepts (g.info src).stype = true →
        (Socket.connect_to g st selfS otherS).2 = .ok ()
        ∧ (Socket.connect_to g st selfS otherS).1.conns tgt = [src]
        ∧ ∀ old, old ≠ src →
            ((Socket.connect_to g st selfS otherS).1.conns old).count tgt = 0) := by
  refine ⟨?_, ?_, ?_, ?_, ?_, ?_, ?_⟩
  · intro s _
    simp
  · intro selfS otherS
    exact connect_to_wf selfS otherS hwf
  · intro a b
    exact disconnect_wf a b hwf
  · intro a
    exact (disconnect_all_wf a hwf).1
  · intro srcNode sname tgtNode tname
    exact project_connect_wf srcNode sname tgtNode tname hwf
  · intro n
    exact remove_node_wf n hwf
  · intro selfS otherS src tgt hne hsrc htgt htype
    rcases connect_to_ok hwf hne hsrc htgt htype with ⟨hok, htgt1, hsym', _, _⟩
    refine ⟨hok, htgt1, ?_⟩
    intro old hold
    have := hsym' old tgt
    rw [htgt1, List.count_singleton'] at this
    rw [this, if_neg (fun h => hold h.symm)]

/-- A two-socket heap: socket 1 is an output of node 0 with `Any` type,
socket 2 an input of node 1 with `Any` type; no connections yet. -/
def sockWitnessG : SockGraph :=
  ⟨[0, 1], [1, 2],
    fun sid =>
      if sid = 1 then ⟨0, "out", .anyT, false⟩ else ⟨1, "x", .anyT, true⟩⟩

def sockWitnessSt : SockSt :=
  ⟨fun _ => [], fun _ => ⟨true, [], none, .idle⟩⟩

/-- C10 (witness): the invariant theorem applied to the concrete two-socket
heap with no connections. -/
theorem socket_single_connection_witness :
    AtMostOne sockWitnessG (fun _ => [])
    ∧ (∀ selfS otherS,
        WF sockWitnessG
          (Socket.connect_to sockWitnessG sockWitnessSt selfS otherS).1.conns)
    ∧ (∀ a b, WF sockWitnessG
        (Socket.disconnect sockWitnessG sockWitnessSt a b).conns)
    ∧ (∀ a, WF sockWitnessG
        (Socket.disconnect_all sockWitnessG sockWitnessSt a).conns)
    ∧ (∀ srcNode sname tgtNode tname,
        WF sockWitnessG
          (Project.connect sockWitnessG sockWitnessSt
            srcNode sname tgtNode tname).1.conns)
    ∧ (∀ n, WF sockWitnessG
        (Project.remove_node sockWitnessG sockWitnessSt n).1.conns)
    ∧ (∀ selfS otherS src tgt,
        ¬ (sockWitnessG.info selfS).is_input =
            (sockWitnessG.info otherS).is_input →
        src = (if (sockWitnessG.info selfS).is_input then otherS else selfS) →
        tgt = (if (sockWitnessG.info selfS).is_input then selfS else otherS) →
        (sockWitnessG.info tgt).stype.accepts
          (sockWitnessG.info src).stype = true →
        (Socket.connect_to sockWitnessG sockWitnessSt selfS otherS).2 = .ok ()
        ∧ (Socket.connect_to sockWitnessG sockWitnessSt
            selfS otherS).1.conns tgt = [src]
        ∧ ∀ old, old ≠ src →
            ((Socket.connect_to sockWitnessG sockWitnessSt
              selfS otherS).1.conns old).count tgt = 0) :=
  socket_single_connection sockWitnessG sockWitnessSt
    ⟨fun _ _ => rfl, fun _ t ht => absurd ht (List.not_mem_nil t),
      fun _ _ => Nat.zero_le 1⟩

/-! ## Archive serialization (`core/io.py`, `ProjectSerializer`)

The serializer-level view of a project: nodes carry id, qualified operation
name, position, parameter values, state, dirty flag, cached outputs, and
named typed sockets whose connections reference the peer as
`(node id, socket name)`.  `graph.json` is embedded structurally
(`json.dumps`/`loads` round-trips it verbatim); per-node cache blobs are
embedded as either a decodable payload or a corrupt blob whose
deserialization raises. -/

structure MSocket where
  name : String
  stype : SType
  conns : List (Nat × String)

structure MNode where
  id : Nat
  op : String
  position : Int × Int
  params : List (String × PyVal)
  state : NodeState
  dirty : Bool
  cache : Outputs
  inputs : List MSocket
  outputs : List MSocket

structure MProject where
  nodes : List MNode
  auto_compute : Bool
  autosave_interval_minutes : Nat

/-- An operation's declaration in the registry: socket declarations and
parameter declarations (with default values). -/
structure OpDef where
  inputs : List (String × SType)
  outputs : List (String × SType)
  params : List (String × PyVal)

structure SavedNode where
  id : Nat
  operation : String
  position : Int × Int
  parameters : List (String × PyVal)
  state : NodeState
  deriving DecidableEq

structure SavedConn where
  source_node : Nat
  source_socket : String
  target_node : Nat
  target_socket : String
  deriving DecidableEq

structure GraphData where
  nodes : List SavedNode
  connections : List SavedConn
  auto_compute : Bool
  autosave_interval_minutes : Nat
  deriving DecidableEq

inductive Blob where
  | good (o : Outputs)
  | corrupt
  deriving DecidableEq

/-- `_deserialize_cache` outcome: a corrupt blob raises. -/
def decodeBlob : Blob → Except String Outputs
  | .good o => .ok o
  | .corrupt => .error "corrupt cache blob"

/-- The connection serialization loop of `_serialize_graph`
(`core/io.py` lines 250–266), including the `seen_connections` dedup. -/
def collectConns (nodes : List MNode) : List SavedConn :=
  nodes.foldl
    (fun acc n =>
      n.outputs.foldl
        (fun acc sock =>
          sock.conns.foldl
            (fun acc tgt =>
              let c : SavedConn := ⟨n.id, sock.name, tgt.1, tgt.2⟩
              if c ∈ acc then acc else acc ++ [c])
            acc)
        acc)
    []

/-- `ProjectSerializer._serialize_graph` (lines 234–278). -/
def serializeGraph (p : MProject) : GraphData :=
  ⟨p.nodes.map (fun n => ⟨n.id, n.op, n.position, n.params, n.state⟩),
   collectConns p.nodes,
   p.auto_compute, p.autosave_interval_minutes⟩

/-- Node construction during `_deserialize_graph` (lines 286–308): sockets
rebuilt fresh from the operation declaration, saved id overriding the
generated one, declared parameters with saved values restored by name,
saved state restored, `_is_dirty = True`. -/
def buildNode (od : OpDef) (sd : SavedNode) : MNode :=
  ⟨sd.id, sd.operation, sd.position,
   od.params.map (fun pd =>
     match sd.parameters.lookup pd.1 with
     | some v => (pd.1, v)
     | none => pd),
   sd.state, true, [],
   od.inputs.map (fun s => ⟨s.1, s.2, []⟩),
   od.outputs.map (fun s => ⟨s.1, s.2, []⟩)⟩

def updNode (nodes : List MNode) (i : Nat) (f : MNode → MNode) : List MNode :=
  nodes.map (fun n => if n.id = i then f n else n)

def getOut (n : MNode) (nm : String) : Option MSocket :=
  n.outputs.find? (fun s => s.name = nm)

def getIn (n : MNode) (nm : String) : Option MSocket :=
  n.inputs.find? (fun s => s.name = nm)

def addOutConn (sname : String) (c : Nat × String) (n : MNode) : MNode :=
  let outs := n.outputs.map fun s =>
    if s.name = sname then { s with conns := s.conns ++ [c] } else s
  { n with outputs := outs }

def addInConn (sname : String) (c : Nat × String) (n : MNode) : MNode :=
  let ins := n.inputs.map fun s =>
    if s.name = sname then { s with conns := s.conns ++ [c] } else s
  { n with inputs := ins }

def dropOutConn (sname : String) (c : Nat × String) (n : MNode) : MNode :=
  let outs := n.outputs.map fun s =>
    if s.name = sname then { s with conns := s.conns.erase c } else s
  { n with outputs := outs }

/-- `target.disconnect_all()` as triggered inside `connect_to` during
deserialization: remove each existing edge from both sides. -/
def severInput (nodes : List MNode) (tgtId : Nat) (tname : String) : List MNode :=
  match (nodes.find? (fun n => n.id = tgtId)).bind (fun n => getIn n tname) with
  | none => nodes
  | some ts =>
    let nodes1 := ts.conns.foldl
      (fun acc pc => updNode acc pc.1 (dropOutConn pc.2 (tgtId, tname))) nodes
    updNode nodes1 tgtId (fun n =>
      let ins := n.inputs.map fun s =>
        if s.name = tname then { s with conns := [] } else s
      { n with inputs := ins })

/-- One `project.connect(...)` call of the deserialization loop
(lines 311–324 together with `Project.connect` and `Socket.connect_to`):
silently skipped when a node or socket is missing or the type check fails;
severs the target input's existing connection first; records the edge on
both sides.  The `invalidate()` call at the end of `connect_to` is a no-op
here because `_deserialize_graph` has set `_is_dirty = True` on every node
before any connection is made. -/
def applyConn (nodes : List MNode) (c : SavedConn) : List MNode :=
  match nodes.find? (fun n => n.id = c.source_node),
        nodes.find? (fun n => n.id = c.target_node) with
  | some sn, some tn =>
    match getOut sn c.source_socket, getIn tn c.target_socket with
    | some ss, some ts =>
      if ts.stype.accepts ss.stype then
        let nodes1 := if ts.conns ≠ []
          then severInput nodes c.target_node c.target_socket else nodes
        let nodes2 := updNode nodes1 c.source_node
          (addOutConn c.source_socket (c.target_node, c.target_socket))
        updNode nodes2 c.target_node
          (addInConn c.target_socket (c.source_node, c.source_socket))
      else nodes
    | _, _ => nodes
  | _, _ => nodes

/-- `ProjectSerializer._deserialize_graph` (lines 280–331): build the nodes
(an unresolvable operation raises and aborts the load), then apply the
connections, then restore the settings. -/
def deserializeGraph (reg : String → Option OpDef) (gd : GraphData) :
    Except String MProject := do
  let nodes0 ← gd.nodes.mapM (fun sd =>
    match reg sd.operation with
    | some od => Except.ok (buildNode od sd)
    | none => Except.error ("Cannot resolve operation class: " ++ sd.operation))
  let nodes1 := gd.connections.foldl applyConn nodes0
  return ⟨nodes1, gd.auto_compute, gd.autosave_interval_minutes⟩

/-- `ProjectSerializer.save` (lines 187–207): the graph section plus one
cache blob per node that currently holds a cache. -/
def save (p : MProject) : GraphData × List (Nat × Blob) :=
  (serializeGraph p,
   p.nodes.foldl
     (fun acc n => if n.cache ≠ [] then acc ++ [(n.id, Blob.good n.cache)] else acc)
     [])

/-- The per-node cache restoration of `ProjectSerializer.load`
(lines 217–228): a present blob that decodes installs the cache and marks
the node clean/`VALID`; a present blob that fails to decode marks the node
dirty/`DIRTY`; an absent blob leaves the node as deserialized. -/
def restoreCache (blobs : List (Nat × Blob)) (n : MNode) : MNode :=
  match blobs.lookup n.id with
  | some blob =>
    match decodeBlob blob with
    | .ok c => { n with cache := c, dirty := false, state := .valid }
    | .error _ => { n with dirty := true, state := .dirty }
  | none => n

/-- `ProjectSerializer.load` (lines 209–230). -/
def load (reg : String → Option OpDef) (archive : GraphData × List (Nat × Blob)) :
    Except String MProject := do
  let p ← deserializeGraph reg archive.1
  return { p with nodes := p.nodes.map (restoreCache archive.2) }

lemma addOutConn_dirty (sname : String) (c : Nat × String) (n : MNode) :
    (addOutConn sname c n).dirty = n.dirty := rfl

lemma addInConn_dirty (sname : String) (c : Nat × String) (n : MNode) :
    (addInConn sname c n).dirty = n.dirty := rfl

lemma dropOutConn_dirty (sname : String) (c : Nat × String) (n : MNode) :
    (dropOutConn sname c n).dirty = n.dirty := rfl

lemma updNode_dirty {nodes : List MNode} {i : Nat} {f : MNode → MNode}
    (hf : ∀ n, (f n).dirty = n.dirty)
    (h : ∀ n ∈ nodes, n.dirty = true) :
    ∀ n' ∈ updNode nodes i f, n'.dirty = true := by
  intro n' hn'
  rcases List.mem_map.mp hn' with ⟨n, hn, rfl⟩
  by_cases hid : n.id = i
  · rw [if_pos hid, hf]
    exact h n hn
  · rw [if_neg hid]
    exact h n hn

lemma severInput_dirty {nodes : List MNode} {tgtId : Nat} {tname : String}
    (h : ∀ n ∈ nodes, n.dirty = true) :
    ∀ n' ∈ severInput nodes tgtId tname, n'.dirty = true := by
  unfold severInput
  rcases hts : (nodes.find? (fun n => n.id = tgtId)).bind (fun n => getIn n tname)
    with _ | ts <;> simp only [hts]
  · exact h
  · have hfold : ∀ (l : List (Nat × String)) (acc : List MNode),
        (∀ n ∈ acc, n.dirty = true) →
        ∀ n' ∈ l.foldl
          (fun acc pc => updNode acc pc.1 (dropOutConn pc.2 (tgtId, tname))) acc,
          n'.dirty = true := by
      intro l
      induction l with
      | nil => intro acc hacc; exact hacc
      | cons pc rest ih =>
        intro acc hacc
        exact ih _ (updNode_dirty (fun n => dropOutConn_dirty _ _ n) hacc)
    refine updNode_dirty (fun n => rfl) ?_
    exact hfold ts.conns nodes h

lemma applyConn_dirty {nodes : List MNode} {c : SavedConn}
    (h : ∀ n ∈ nodes, n.dirty = true) :
    ∀ n' ∈ applyConn nodes c, n'.dirty = true := by
  unfold applyConn
  split
  · split
    · split
      · rename_i ss ts hq1 hq2 hacc
        have h1 : ∀ n ∈ (if ts.conns ≠ []
            then severInput nodes c.target_node c.target_socket else nodes),
            n.dirty = true := by
          split
          · exact severInput_dirty h
          · exact h
        exact updNode_dirty (fun n => addInConn_dirty _ _ n)
          (updNode_dirty (fun n => addOutConn_dirty _ _ n) h1)
      · exact h
    · exact h
  · exact h

lemma foldl_applyConn_dirty {conns : List SavedConn} :
    ∀ {nodes : List MNode}, (∀ n ∈ nodes, n.dirty = true) →
    ∀ n' ∈ conns.foldl applyConn nodes, n'.dirty = true := by
  induction conns with
  | nil => intro nodes h; exact h
  | cons c rest ih =>
    intro nodes h
    exact ih (applyConn_dirty h)

lemma mapM_ok_forall {α β : Type} (f : α → Except String β) :
    ∀ (l : List α) (out : List β), l.mapM f = .ok out →
      ∀ b ∈ out, ∃ a ∈ l, f a = .ok b := by
  intro l
  induction l with
  | nil =>
    intro out h b hb
    simp only [List.mapM_nil, pure] at h
    cases h
    cases hb
  | cons a rest ih =>
    intro out h b hb
    rw [List.mapM_cons] at h
    rcases hfa : f a with e | b0 <;> rw [hfa] at h
    · cases h
    · rcases hrest : rest.mapM f with e | bs <;> rw [hrest] at h
      · cases h
      · simp only [pure] at h
        cases h
        rcases List.mem_cons.mp hb with rfl | hb
        · exact ⟨a, List.mem_cons_self a rest, hfa⟩
        · rcases ih bs hrest b hb with ⟨a', ha', hfa'⟩
          exact ⟨a', List.mem_cons_of_mem _ ha', hfa'⟩

/-- After `_deserialize_graph`, every node is dirty (`_is_dirty = True` is
set on each built node and the connection loop never touches dirty flags). -/
lemma deserializeGraph_all_dirty {reg : String → Option OpDef}
    {gd : GraphData} {p : MProject}
    (h : deserializeGraph reg gd = .ok p) :
    ∀ n ∈ p.nodes, n.dirty = true := by
  unfold deserializeGraph at h
  rcases hm : gd.nodes.mapM (fun sd =>
    match reg sd.operation with
    | some od => Except.ok (buildNode od sd)
    | none => Except.error ("Cannot resolve operation class: " ++ sd.operation))
    with e | nodes0 <;> rw [hm] at h
  · cases h
  · cases h
    apply foldl_applyConn_dirty
    intro n hn
    rcases mapM_ok_forall _ gd.nodes nodes0 hm n hn with ⟨sd, _, hf⟩
    rcases hr : reg sd.operation with _ | od <;> rw [hr] at hf
    · cases hf
    · cases hf
      rfl

/-- C8: a corrupt per-node cache blob never aborts the load — whenever the
graph section deserializes, `load` succeeds; a node whose blob is corrupt
comes back dirty with state `DIRTY`, and a node with no blob keeps the
dirty flag `_deserialize_graph` set (true for every node). -/
theorem load_corrupt_cache_degrades (reg : String → Option OpDef)
    (gd : GraphData) (blobs : List (Nat × Blob)) (p : MProject)
    (h : deserializeGraph reg gd = .ok p) :
    load reg (gd, blobs) =
      .ok ⟨p.nodes.map (restoreCache blobs), p.auto_compute,
        p.autosave_interval_minutes⟩
    ∧ (∀ n ∈ p.nodes, blobs.lookup n.id = some .corrupt →
        (restoreCache blobs n).dirty = true
        ∧ (restoreCache blobs n).state = .dirty)
    ∧ (∀ n ∈ p.nodes, blobs.lookup n.id = none →
        (restoreCache blobs n).dirty = true) := by
  refine ⟨?_, ?_, ?_⟩
  · unfold load
    rw [h]
    rfl
  · intro n _ hblob
    unfold restoreCache
    rw [hblob]
    exact ⟨rfl, rfl⟩
  · intro n hn hblob
    unfold restoreCache
    rw [hblob]
    exact deserializeGraph_all_dirty h n hn

/-- One-operation registry used to witness the serialization claims. -/
def ioReg : String → Option OpDef :=
  fun s =>
    if s = "persistra.operations.Src"
    then some ⟨[], [("out", SType.anyT)], [("n", PyVal.raw (RawData.num 5))]⟩
    else none

/-- A one-node graph section whose node has a saved parameter value. -/
def ioGd : GraphData :=
  ⟨[⟨7, "persistra.operations.Src", (0, 0),
    [("n", PyVal.raw (RawData.num 3))], NodeState.valid⟩], [], false, 5⟩

/-- The project `_deserialize_graph` builds from `ioGd`. -/
def ioP : MProject :=
  ⟨[⟨7, "persistra.operations.Src", (0, 0),
    [("n", PyVal.raw (RawData.num 3))], NodeState.valid, true, [], [],
    [⟨"out", SType.anyT, []⟩]⟩], false, 5⟩

/-- C8 (witness): loading with a corrupt cache blob for node 7 succeeds and
leaves the node dirty. -/
theorem load_corrupt_cache_degrades_witness :
    load ioReg (ioGd, [(7, Blob.corrupt)]) =
      .ok ⟨ioP.nodes.map (restoreCache [(7, Blob.corrupt)]), ioP.auto_compute,
        ioP.autosave_interval_minutes⟩
    ∧ (∀ n ∈ ioP.nodes, List.lookup n.id [(7, Blob.corrupt)] = some .corrupt →
        (restoreCache [(7, Blob.corrupt)] n).dirty = true
        ∧ (restoreCache [(7, Blob.corrupt)] n).state = .dirty)
    ∧ (∀ n ∈ ioP.nodes, List.lookup n.id [(7, Blob.corrupt)] = none →
        (restoreCache [(7, Blob.corrupt)] n).dirty = true) :=
  load_corrupt_cache_degrades ioReg ioGd [(7, Blob.corrupt)] ioP rfl

/-! ### Round-trip analysis

`fillNode E n` is the reconstruction state of node `n` after the
deserializer has applied the edge list prefix `E`: runtime reset
(dirty, empty cache) with each socket's connections being the edges of `E`
incident to it, in order. -/

def fillIn (E : List SavedConn) (nid : Nat) (s : MSocket) : MSocket :=
  ⟨s.name, s.stype,
   (E.filter (fun c => c.target_node == nid && c.target_socket == s.name)).map
     (fun c => (c.source_node, c.source_socket))⟩

def fillOut (E : List SavedConn) (nid : Nat) (s : MSocket) : MSocket :=
  ⟨s.name, s.stype,
   (E.filter (fun c => c.source_node == nid && c.source_socket == s.name)).map
     (fun c => (c.target_node, c.target_socket))⟩

def fillNode (E : List SavedConn) (n : MNode) : MNode :=
  ⟨n.id, n.op, n.position, n.params, n.state, true, [],
   n.inputs.map (fillIn E n.id), n.outputs.map (fillOut E n.id)⟩

/-- The connection list without the `seen_connections` dedup. -/
def rawConns (nodes : List MNode) : List SavedConn :=
  nodes.flatMap (fun n => n.outputs.flatMap
    (fun s => s.conns.map (fun c => ⟨n.id, s.name, c.1, c.2⟩)))

/-- The well-formedness of a project that the round-trip claim quantifies
over ("nodes and connections serializable"): unique node ids, parameter and
socket names unique per node, every node's operation resolvable to a
declaration matching its sockets and parameter names, no duplicate edges,
and consistent bidirectional type-correct connection bookkeeping with at
most one connection per input (an input's list is exactly the back
reference of the one edge pointing at it). -/
def Serializable (reg : String → Option OpDef) (p : MProject) : Prop :=
  (p.nodes.map (·.id)).Nodup
  ∧ (∀ n ∈ p.nodes, ∃ defaults,
      reg n.op = some ⟨n.inputs.map (fun s => (s.name, s.stype)),
        n.outputs.map (fun s => (s.name, s.stype)), defaults⟩
      ∧ defaults.map Prod.fst = n.params.map Prod.fst)
  ∧ (∀ n ∈ p.nodes, (n.params.map Prod.fst).Nodup)
  ∧ (∀ n ∈ p.nodes, (n.inputs.map (·.name)).Nodup
      ∧ (n.outputs.map (·.name)).Nodup)
  ∧ (rawConns p.nodes).Nodup
  ∧ (∀ n ∈ p.nodes, ∀ s ∈ n.outputs, ∀ c ∈ s.conns,
      ∃ m ∈ p.nodes, m.id = c.1 ∧ ∃ t ∈ m.inputs, t.name = c.2
        ∧ t.conns = [(n.id, s.name)] ∧ t.stype.accepts s.stype = true)
  ∧ (∀ n ∈ p.nodes, ∀ t ∈ n.inputs, ∀ c ∈ t.conns,
      ∃ m ∈ p.nodes, m.id = c.1 ∧ ∃ s ∈ m.outputs, s.name = c.2
        ∧ (n.id, t.name) ∈ s.conns)

lemma find?_of_nodup_keys {α β : Type} [DecidableEq β] (key : α → β) :
    ∀ (l : List α), (l.map key).Nodup → ∀ x ∈ l,
      l.find? (fun y => key y = key x) = some x := by
  intro l
  induction l with
  | nil => intro _ x hx; cases hx
  | cons a rest ih =>
    intro hnd x hx
    rcases List.mem_cons.mp hx with rfl | hx
    · rw [List.find?_cons_of_pos _ (by simp)]
    · rw [List.map_cons, List.nodup_cons] at hnd
      have hka : ¬ key a = key x := by
        intro he
        exact hnd.1 (he ▸ List.mem_map_of_mem key hx)
      rw [List.find?_cons_of_neg _ (by simpa using hka)]
      exact ih hnd.2 x hx

lemma find?_map_id (nodes : List MNode) (f : MNode → MNode)
    (hf : ∀ n, (f n).id = n.id) (i : Nat) :
    (nodes.map f).find? (fun x => x.id = i) =
      (nodes.find? (fun x => x.id = i)).map f := by
  rw [List.find?_map]
  have hp : ((fun x => decide (x.id = i)) ∘ f) = (fun x => decide (x.id = i)) := by
    funext n
    simp [Function.comp, hf]
  rw [hp]

lemma restore_params :
    ∀ (defaults saved : List (String × PyVal)),
      defaults.map Prod.fst = saved.map Prod.fst →
      (saved.map Prod.fst).Nodup →
      defaults.map (fun pd =>
        match saved.lookup pd.1 with
        | some v => (pd.1, v)
        | none => pd) = saved := by
  intro defaults
  induction defaults with
  | nil =>
    intro saved hnames _
    rcases saved with _ | ⟨s, ss⟩
    · rfl
    · cases hnames
  | cons d ds ih =>
    intro saved hnames hnodup
    rcases saved with _ | ⟨s, ss⟩
    · cases hnames
    · rw [List.map_cons, List.map_cons] at hnames
      have h1 : d.1 = s.1 := by
        injection hnames
      rw [List.map_cons, List.nodup_cons] at hnodup
      have hnames' : ds.map Prod.fst = ss.map Prod.fst := by
        injection hnames
      rw [List.map_cons]
      congr 1
      · rw [h1]
        show (match (s :: ss).lookup s.1 with
          | some v => (s.1, v)
          | none => d) = s
        have hl : (s :: ss).lookup s.1 = some s.2 := by
          show List.lookup s.1 (s :: ss) = some s.2
          simp [List.lookup]
        rw [hl]
      · have : ds.map (fun pd =>
            match (s :: ss).lookup pd.1 with
            | some v => (pd.1, v)
            | none => pd) = ds.map (fun pd =>
            match ss.lookup pd.1 with
            | some v => (pd.1, v)
            | none => pd) := by
          apply List.map_congr_left
          intro pd hpd
          have hmem : pd.1 ∈ ss.map Prod.fst := by
            rw [← hnames']
            exact List.mem_map_of_mem Prod.fst hpd
          have hne : pd.1 ≠ s.1 := by
            intro he
            exact hnodup.1 (he ▸ hmem)
          have hl : (s :: ss).lookup pd.1 = ss.lookup pd.1 := by
            show List.lookup pd.1 (s :: ss) = List.lookup pd.1 ss
            have hb : (pd.1 == s.1) = false := beq_false_of_ne hne
            simp [List.lookup, hb]
          rw [hl]
        rw [this]
        exact ih ss hnames' hnodup.2

lemma mapM_ok_of_forall {α β : Type} (f : α → Except String β) (g : α → β) :
    ∀ (l : List α), (∀ a ∈ l, f a = .ok (g a)) → l.mapM f = .ok (l.map g) := by
  intro l
  induction l with
  | nil => intro _; rfl
  | cons a rest ih =>
    intro h
    rw [List.mapM_cons, h a (List.mem_cons_self a rest),
      ih (fun x hx => h x (List.mem_cons_of_mem _ hx))]
    rfl

def dedupFold (acc : List SavedConn) (l : List SavedConn) : List SavedConn :=
  l.foldl (fun acc c => if c ∈ acc then acc else acc ++ [c]) acc

lemma dedupFold_append (acc : List SavedConn) (x y : List SavedConn) :
    dedupFold acc (x ++ y) = dedupFold (dedupFold acc x) y :=
  List.foldl_append _ _ _ _

lemma sock_fold_eq_dedup (nid : Nat) (sname : String)
    (conns : List (Nat × String)) (acc : List SavedConn) :
    conns.foldl
      (fun acc tgt =>
        let c : SavedConn := ⟨nid, sname, tgt.1, tgt.2⟩
        if c ∈ acc then acc else acc ++ [c]) acc =
    dedupFold acc (conns.map (fun c => ⟨nid, sname, c.1, c.2⟩)) := by
  rw [dedupFold, List.foldl_map]

lemma outs_fold_eq_dedup (nid : Nat) :
    ∀ (outs : List MSocket) (acc : List SavedConn),
    outs.foldl
      (fun acc sock =>
        sock.conns.foldl
          (fun acc tgt =>
            let c : SavedConn := ⟨nid, sock.name, tgt.1, tgt.2⟩
            if c ∈ acc then acc else acc ++ [c]) acc) acc =
    dedupFold acc (outs.flatMap
      (fun s => s.conns.map (fun c => ⟨nid, s.name, c.1, c.2⟩))) := by
  intro outs
  induction outs with
  | nil => intro acc; rfl
  | cons s ss ih =>
    intro acc
    rw [List.foldl_cons, List.flatMap_cons, dedupFold_append,
      sock_fold_eq_dedup, ih]

lemma collectConns_eq_dedup (nodes : List MNode) :
    collectConns nodes = dedupFold [] (rawConns nodes) := by
  suffices h : ∀ acc, nodes.foldl
      (fun acc n =>
        n.outputs.foldl
          (fun acc sock =>
            sock.conns.foldl
              (fun acc tgt =>
                let c : SavedConn := ⟨n.id, sock.name, tgt.1, tgt.2⟩
                if c ∈ acc then acc else acc ++ [c]) acc) acc) acc =
      dedupFold acc (rawConns nodes) by
    exact h []
  induction nodes with
  | nil => intro acc; rfl
  | cons n rest ih =>
    intro acc
    rw [List.foldl_cons, rawConns, List.flatMap_cons, dedupFold_append,
      outs_fold_eq_dedup, ih]
    rfl

lemma dedupFold_of_nodup :
    ∀ (l : List SavedConn) (acc : List SavedConn), l.Nodup →
      (∀ c ∈ l, c ∉ acc) → dedupFold acc l = acc ++ l := by
  intro l
  induction l with
  | nil => intro acc _ _; simp [dedupFold]
  | cons c rest ih =>
    intro acc hnd hdisj
    rw [List.nodup_cons] at hnd
    show dedupFold (if c ∈ acc then acc else acc ++ [c]) rest = acc ++ c :: rest
    rw [if_neg (hdisj c (List.mem_cons_self c rest))]
    rw [ih (acc ++ [c]) hnd.2]
    · simp
    · intro x hx
      intro hmem
      rcases List.mem_append.mp hmem with hmem | hmem
      · exact hdisj x (List.mem_cons_of_mem _ hx) hmem
      · rcases List.mem_singleton.mp hmem with rfl
        exact hnd.1 hx

lemma collectConns_of_nodup (nodes : List MNode)
    (h : (rawConns nodes).Nodup) : collectConns nodes = rawConns nodes := by
  rw [collectConns_eq_dedup, dedupFold_of_nodup _ [] h (by simp), List.nil_append]

lemma mem_rawConns {nodes : List MNode} {e : SavedConn} :
    e ∈ rawConns nodes ↔ ∃ n ∈ nodes, ∃ s ∈ n.outputs, ∃ c ∈ s.conns,
      SavedConn.mk n.id s.name c.1 c.2 = e := by
  simp [rawConns]

lemma filter_eq_single {p : SavedConn → Bool} :
    ∀ (l : List SavedConn), l.Nodup → ∀ a ∈ l, p a = true →
      (∀ x ∈ l, p x = true → x = a) → l.filter p = [a] := by
  intro l
  induction l with
  | nil => intro _ a ha; cases ha
  | cons h rest ih =>
    intro hnd a ha hpa huniq
    rw [List.nodup_cons] at hnd
    rcases List.mem_cons.mp ha with rfl | ha
    · rw [List.filter_cons_of_pos hpa]
      have hrest : rest.filter p = [] := by
        rw [List.filter_eq_nil_iff]
        intro x hx hpx
        have := huniq x (List.mem_cons_of_mem _ hx) hpx
        subst this
        exact hnd.1 hx
      rw [hrest]
    · have hph : p h = false := by
        rcases hp : p h with _ | _
        · rfl
        · have := huniq h (List.mem_cons_self h rest) hp
          subst this
          exact absurd ha hnd.1
      rw [List.filter_cons_of_neg (by simp [hph])]
      exact ih hnd.2 a ha hpa
        (fun x hx hpx => huniq x (List.mem_cons_of_mem _ hx) hpx)

lemma filter_block_nil {p : SavedConn → Bool} {n : MNode}
    (h : ∀ s ∈ n.outputs, ∀ c ∈ s.conns,
      p ⟨n.id, s.name, c.1, c.2⟩ = false) :
    (n.outputs.flatMap
      (fun s => s.conns.map (fun c => ⟨n.id, s.name, c.1, c.2⟩))).filter p
    = [] := by
  rw [List.filter_eq_nil_iff]
  intro e he
  rcases List.mem_flatMap.mp he with ⟨s, hs, he⟩
  rcases List.mem_map.mp he with ⟨c, hc, rfl⟩
  rw [h s hs c hc]
  simp

/-- Filtering one node's connection block by one of its sockets recovers
exactly that socket's connection list. -/
lemma filter_outs_block {nid : Nat} :
    ∀ (outs : List MSocket), (outs.map (·.name)).Nodup → ∀ s ∈ outs,
    ((outs.flatMap (fun u => u.conns.map
      (fun c => (⟨nid, u.name, c.1, c.2⟩ : SavedConn)))).filter
      (fun c => c.source_node == nid && c.source_socket == s.name))
    = s.conns.map (fun c => (⟨nid, s.name, c.1, c.2⟩ : SavedConn)) := by
  intro outs
  induction outs with
  | nil => intro _ s hs; cases hs
  | cons u us ihu =>
    intro hnd s hs
    rw [List.map_cons, List.nodup_cons] at hnd
    rw [List.flatMap_cons, List.filter_append]
    rcases List.mem_cons.mp hs with rfl | hs
    · have hus : ((us.flatMap (fun u => u.conns.map
          (fun c => (⟨nid, u.name, c.1, c.2⟩ : SavedConn)))).filter
          (fun c => c.source_node == nid && c.source_socket == s.name)) = [] := by
        rw [List.filter_eq_nil_iff]
        intro e he
        rcases List.mem_flatMap.mp he with ⟨u', hu', he⟩
        rcases List.mem_map.mp he with ⟨c', _, rfl⟩
        have hne : ¬ u'.name = s.name := by
          intro heq
          exact hnd.1 (heq ▸ List.mem_map_of_mem (·.name) hu')
        simp [hne]
      rw [hus, List.append_nil, List.filter_map]
      congr 1
      rw [List.filter_eq_self]
      intro c _
      simp [Function.comp]
    · have hu : ((u.conns.map
          (fun c => (⟨nid, u.name, c.1, c.2⟩ : SavedConn))).filter
          (fun c => c.source_node == nid && c.source_socket == s.name)) = [] := by
        rw [List.filter_eq_nil_iff]
        intro e he
        rcases List.mem_map.mp he with ⟨c', _, rfl⟩
        have hne : ¬ u.name = s.name := by
          intro heq
          exact hnd.1 (heq ▸ List.mem_map_of_mem (·.name) hs)
        simp [hne]
      rw [hu, List.nil_append]
      exact ihu hnd.2 s hs

/-- Filtering the raw connection list by a source socket recovers exactly
that socket's connection list. -/
lemma rawConns_filter_source {nodes : List MNode}
    (hids : (nodes.map (·.id)).Nodup)
    {n : MNode} (hn : n ∈ nodes)
    (houtnd : (n.outputs.map (·.name)).Nodup)
    {s : MSocket} (hs : s ∈ n.outputs) :
    (rawConns nodes).filter
      (fun c => c.source_node == n.id && c.source_socket == s.name) =
    s.conns.map (fun c => ⟨n.id, s.name, c.1, c.2⟩) := by
  induction nodes with
  | nil => cases hn
  | cons m rest ih =>
    rw [List.map_cons, List.nodup_cons] at hids
    have hsplitRaw : rawConns (m :: rest) =
        (m.outputs.flatMap
          (fun s => s.conns.map (fun c => ⟨m.id, s.name, c.1, c.2⟩)))
        ++ rawConns rest := by
      rw [rawConns, List.flatMap_cons]
      rfl
    rw [hsplitRaw, List.filter_append]
    rcases List.mem_cons.mp hn with rfl | hn
    · have hrest : (rawConns rest).filter
          (fun c => c.source_node == n.id && c.source_socket == s.name) = [] := by
        rw [List.filter_eq_nil_iff]
        intro e he
        rcases mem_rawConns.mp he with ⟨m', hm', s', _, c', _, rfl⟩
        have hne : ¬ m'.id = n.id := by
          intro heq
          exact hids.1 (heq ▸ List.mem_map_of_mem (·.id) hm')
        simp [hne]
      rw [hrest, List.append_nil]
      exact filter_outs_block n.outputs houtnd s hs
    · have hblock : ((m.outputs.flatMap
          (fun s' => s'.conns.map
            (fun c => (⟨m.id, s'.name, c.1, c.2⟩ : SavedConn)))).filter
          (fun c => c.source_node == n.id && c.source_socket == s.name)) = [] := by
        apply filter_block_nil
        intro s' _ c' _
        have hne : ¬ m.id = n.id := by
          intro heq
          exact hids.1 (heq ▸ List.mem_map_of_mem (·.id) hn)
        simp [hne]
      rw [hblock, List.nil_append]
      exact ih hids.2 hn

/-- Any raw edge into a given input socket is *the* edge recorded by its
single back reference. -/
lemma unique_target {reg : String → Option OpDef} {p : MProject}
    (hser : Serializable reg p) {m : MNode} (hm : m ∈ p.nodes)
    {t : MSocket} (ht : t ∈ m.inputs) :
    ∀ e ∈ rawConns p.nodes, e.target_node = m.id → e.target_socket = t.name →
      ∃ d, t.conns = [d] ∧ e = ⟨d.1, d.2, m.id, t.name⟩ := by
  rcases hser with ⟨hids, _, _, hsnames, _, hfwd, _⟩
  intro e he htn hts
  rcases mem_rawConns.mp he with ⟨n', hn', s', hs', c', hc', rfl⟩
  have htn' : c'.1 = m.id := htn
  have hts' : c'.2 = t.name := hts
  rcases hfwd n' hn' s' hs' c' hc' with
    ⟨m', hm', hm'id, t', ht', ht'name, ht'conns, _⟩
  have hmm : m' = m :=
    List.inj_on_of_nodup_map hids hm' hm (by rw [hm'id, htn'])
  subst hmm
  have htt : t' = t :=
    List.inj_on_of_nodup_map (hsnames m' hm').1 ht' ht (by rw [ht'name, hts'])
  subst htt
  exact ⟨(n'.id, s'.name), ht'conns, by rw [htn', hts']⟩

/-- The edges of a strict prefix of the raw list never point at the input
socket targeted by the pivot edge. -/
lemma filter_target_prefix_nil {reg : String → Option OpDef} {p : MProject}
    (hser : Serializable reg p) {m : MNode} (hm : m ∈ p.nodes)
    {t : MSocket} (ht : t ∈ m.inputs)
    {E R : List SavedConn} {c : SavedConn}
    (hsplit : rawConns p.nodes = E ++ c :: R)
    (hcn : c.target_node = m.id) (hcs : c.target_socket = t.name) :
    E.filter (fun x => x.target_node == m.id && x.target_socket == t.name)
      = [] := by
  rw [List.filter_eq_nil_iff]
  intro x hx hpx
  simp only [Bool.and_eq_true, beq_iff_eq] at hpx
  have hxraw : x ∈ rawConns p.nodes := by
    rw [hsplit]
    exact List.mem_append.mpr (Or.inl hx)
  have hcraw : c ∈ rawConns p.nodes := by
    rw [hsplit]
    exact List.mem_append.mpr (Or.inr (List.mem_cons_self c R))
  rcases unique_target hser hm ht x hxraw hpx.1 hpx.2 with ⟨d, hd, hxe⟩
  rcases unique_target hser hm ht c hcraw hcn hcs with ⟨d', hd', hce⟩
  have hdd : d = d' := by
    have h12 : ([d] : List (Nat × String)) = [d'] := by rw [← hd, hd']
    simpa using h12
  have hxc : x = c := by
    rw [hxe, hce, hdd]
  have hnd := hser.2.2.2.2.1
  rw [hsplit] at hnd
  rcases List.nodup_append.mp hnd with ⟨_, _, hdisj⟩
  exact hdisj (hxc ▸ hx) (List.mem_cons_self c R)

/-- Filtering the raw list by a connected input socket yields exactly the
one edge recorded by its back reference. -/
lemma rawConns_filter_target_single {reg : String → Option OpDef}
    {p : MProject} (hser : Serializable reg p) {m : MNode} (hm : m ∈ p.nodes)
    {t : MSocket} (ht : t ∈ m.inputs) {d : Nat × String}
    (htc : t.conns = [d]) :
    (rawConns p.nodes).filter
      (fun x => x.target_node == m.id && x.target_socket == t.name)
      = [⟨d.1, d.2, m.id, t.name⟩] := by
  have hbwd := hser.2.2.2.2.2.2
  rcases hbwd m hm t ht d (htc ▸ List.mem_cons_self d []) with
    ⟨m', hm', hm'id, s', hs', hs'name, hmem⟩
  have he0 : (⟨d.1, d.2, m.id, t.name⟩ : SavedConn) ∈ rawConns p.nodes := by
    rw [mem_rawConns]
    exact ⟨m', hm', s', hs', (m.id, t.name), hmem, by rw [hm'id, hs'name]⟩
  apply filter_eq_single (rawConns p.nodes) hser.2.2.2.2.1 _ he0 (by simp)
  intro x hx hpx
  simp only [Bool.and_eq_true, beq_iff_eq] at hpx
  rcases unique_target hser hm ht x hx hpx.1 hpx.2 with ⟨d'', hd'', hxe⟩
  have hdd : d = d'' := by
    have h12 : ([d] : List (Nat × String)) = [d''] := by rw [← htc, hd'']
    simpa using h12
  rw [hxe, ← hdd]

/-- An unconnected input socket is targeted by no raw edge. -/
lemma rawConns_filter_target_nil {reg : String → Option OpDef}
    {p : MProject} (hser : Serializable reg p) {m : MNode} (hm : m ∈ p.nodes)
    {t : MSocket} (ht : t ∈ m.inputs) (htc : t.conns = []) :
    (rawConns p.nodes).filter
      (fun x => x.target_node == m.id && x.target_socket == t.name) = [] := by
  rw [List.filter_eq_nil_iff]
  intro x hx hpx
  simp only [Bool.and_eq_true, beq_iff_eq] at hpx
  rcases unique_target hser hm ht x hx hpx.1 hpx.2 with ⟨d, hd, _⟩
  rw [htc] at hd
  cases hd

lemma fillOut_full {reg : String → Option OpDef} {p : MProject}
    (hser : Serializable reg p) {n : MNode} (hn : n ∈ p.nodes)
    {s : MSocket} (hs : s ∈ n.outputs) :
    fillOut (rawConns p.nodes) n.id s = s := by
  unfold fillOut
  rw [rawConns_filter_source hser.1 hn (hser.2.2.2.1 n hn).2 hs, List.map_map]
  have hcomp : ((fun c : SavedConn => (c.target_node, c.target_socket)) ∘
      (fun c : Nat × String => (⟨n.id, s.name, c.1, c.2⟩ : SavedConn))) = id := by
    funext c
    rfl
  rw [hcomp, List.map_id]

lemma fillIn_full {reg : String → Option OpDef} {p : MProject}
    (hser : Serializable reg p) {m : MNode} (hm : m ∈ p.nodes)
    {t : MSocket} (ht : t ∈ m.inputs) :
    fillIn (rawConns p.nodes) m.id t = t := by
  unfold fillIn
  rcases htc : t.conns with _ | ⟨d, rest⟩
  · rw [rawConns_filter_target_nil hser hm ht htc, List.map_nil, ← htc]
  · have hsingle : t.conns = [d] := by
      rcases hser.2.2.2.2.2.2 m hm t ht d (htc ▸ List.mem_cons_self d rest) with
        ⟨m', hm', hm'id, s', hs', hs'name, hmem⟩
      rcases hser.2.2.2.2.2.1 m' hm' s' hs' (m.id, t.name) hmem with
        ⟨m'', hm'', hm''id, t'', ht'', ht''name, ht''conns, _⟩
      have hmm : m'' = m := List.inj_on_of_nodup_map hser.1 hm'' hm hm''id
      subst hmm
      have htt : t'' = t :=
        List.inj_on_of_nodup_map (hser.2.2.2.1 m'' hm'').1 ht'' ht ht''name
      subst htt
      rw [ht''conns] at htc ⊢
      have hd : d = (m'.id, s'.name) := (List.cons_eq_cons.mp htc.symm).1
      rw [hd]
    rw [rawConns_filter_target_single hser hm ht hsingle, List.map_cons,
      List.map_nil]
    have hd1 : ((⟨d.1, d.2, m.id, t.name⟩ : SavedConn).source_node,
        (⟨d.1, d.2, m.id, t.name⟩ : SavedConn).source_socket) = d := rfl
    rw [hd1, ← hsingle]

lemma map_eq_self_of_eq {α : Type} {f : α → α} {l : List α}
    (h : ∀ x ∈ l, f x = x) : l.map f = l := by
  have h2 : ∀ x ∈ l, f x = id x := h
  rw [List.map_congr_left h2, List.map_id]

lemma fillNode_full {reg : String → Option OpDef} {p : MProject}
    (hser : Serializable reg p) {n : MNode} (hn : n ∈ p.nodes) :
    fillNode (rawConns p.nodes) n =
    ⟨n.id, n.op, n.position, n.params, n.state, true, [],
      n.inputs, n.outputs⟩ := by
  unfold fillNode
  rw [map_eq_self_of_eq (fun t ht => fillIn_full hser hn ht),
    map_eq_self_of_eq (fun s hs => fillOut_full hser hn hs)]

lemma fillIn_append (E : List SavedConn) (c : SavedConn) (nid : Nat)
    (u : MSocket) :
    fillIn (E ++ [c]) nid u =
      if c.target_node = nid ∧ c.target_socket = u.name
      then ⟨u.name, u.stype,
        (fillIn E nid u).conns ++ [(c.source_node, c.source_socket)]⟩
      else fillIn E nid u := by
  unfold fillIn
  rw [List.filter_append, List.map_append]
  by_cases h : c.target_node = nid ∧ c.target_socket = u.name
  · rw [if_pos h]
    have hc : ([c].filter
        (fun x => x.target_node == nid && x.target_socket == u.name)) = [c] := by
      simp [h.1, h.2]
    rw [hc]
    rfl
  · rw [if_neg h]
    have hc : ([c].filter
        (fun x => x.target_node == nid && x.target_socket == u.name)) = [] := by
      rcases not_and_or.mp h with h1 | h1 <;> simp [h1]
    rw [hc, List.map_nil, List.append_nil]

lemma fillOut_append (E : List SavedConn) (c : SavedConn) (nid : Nat)
    (u : MSocket) :
    fillOut (E ++ [c]) nid u =
      if c.source_node = nid ∧ c.source_socket = u.name
      then ⟨u.name, u.stype,
        (fillOut E nid u).conns ++ [(c.target_node, c.target_socket)]⟩
      else fillOut E nid u := by
  unfold fillOut
  rw [List.filter_append, List.map_append]
  by_cases h : c.source_node = nid ∧ c.source_socket = u.name
  · rw [if_pos h]
    have hc : ([c].filter
        (fun x => x.source_node == nid && x.source_socket == u.name)) = [c] := by
      simp [h.1, h.2]
    rw [hc]
    rfl
  · rw [if_neg h]
    have hc : ([c].filter
        (fun x => x.source_node == nid && x.source_socket == u.name)) = [] := by
      rcases not_and_or.mp h with h1 | h1 <;> simp [h1]
    rw [hc, List.map_nil, List.append_nil]

lemma MNode_eq (a b : MNode) (h1 : a.id = b.id) (h2 : a.op = b.op)
    (h3 : a.position = b.position) (h4 : a.params = b.params)
    (h5 : a.state = b.state) (h6 : a.dirty = b.dirty) (h7 : a.cache = b.cache)
    (h8 : a.inputs = b.inputs) (h9 : a.outputs = b.outputs) : a = b := by
  cases a
  cases b
  simp only [MNode.mk.injEq]
  exact ⟨h1, h2, h3, h4, h5, h6, h7, h8, h9⟩

lemma inputs_fill_append (E : List SavedConn) (c : SavedConn) (x : MNode)
    (htgt : x.id = c.target_node) :
    x.inputs.map (fillIn (E ++ [c]) x.id) =
    (x.inputs.map (fillIn E x.id)).map (fun s =>
      if s.name = c.target_socket
      then { s with conns := s.conns ++ [(c.source_node, c.source_socket)] }
      else s) := by
  rw [List.map_map]
  apply List.map_congr_left
  intro u _
  show fillIn (E ++ [c]) x.id u =
    (if (fillIn E x.id u).name = c.target_socket
      then { fillIn E x.id u with
        conns := (fillIn E x.id u).conns ++ [(c.source_node, c.source_socket)] }
      else fillIn E x.id u)
  rw [fillIn_append]
  by_cases hu : c.target_socket = u.name
  · rw [if_pos ⟨htgt.symm, hu⟩,
      if_pos (show (fillIn E x.id u).name = c.target_socket from hu.symm)]
    rfl
  · rw [if_neg (fun hh => hu hh.2),
      if_neg (show ¬ (fillIn E x.id u).name = c.target_socket from
        fun hh => hu (Eq.symm hh))]

lemma inputs_fill_append_other (E : List SavedConn) (c : SavedConn) (x : MNode)
    (htgt : ¬ x.id = c.target_node) :
    x.inputs.map (fillIn (E ++ [c]) x.id) = x.inputs.map (fillIn E x.id) := by
  apply List.map_congr_left
  intro u _
  rw [fillIn_append, if_neg (fun hh => htgt (Eq.symm hh.1))]

lemma outputs_fill_append (E : List SavedConn) (c : SavedConn) (x : MNode)
    (hsrc : x.id = c.source_node) :
    x.outputs.map (fillOut (E ++ [c]) x.id) =
    (x.outputs.map (fillOut E x.id)).map (fun s =>
      if s.name = c.source_socket
      then { s with conns := s.conns ++ [(c.target_node, c.target_socket)] }
      else s) := by
  rw [List.map_map]
  apply List.map_congr_left
  intro u _
  show fillOut (E ++ [c]) x.id u =
    (if (fillOut E x.id u).name = c.source_socket
      then { fillOut E x.id u with
        conns := (fillOut E x.id u).conns ++ [(c.target_node, c.target_socket)] }
      else fillOut E x.id u)
  rw [fillOut_append]
  by_cases hu : c.source_socket = u.name
  · rw [if_pos ⟨hsrc.symm, hu⟩,
      if_pos (show (fillOut E x.id u).name = c.source_socket from hu.symm)]
    rfl
  · rw [if_neg (fun hh => hu hh.2),
      if_neg (show ¬ (fillOut E x.id u).name = c.source_socket from
        fun hh => hu (Eq.symm hh))]

lemma outputs_fill_append_other (E : List SavedConn) (c : SavedConn) (x : MNode)
    (hsrc : ¬ x.id = c.source_node) :
    x.outputs.map (fillOut (E ++ [c]) x.id) = x.outputs.map (fillOut E x.id) := by
  apply List.map_congr_left
  intro u _
  rw [fillOut_append, if_neg (fun hh => hsrc (Eq.symm hh.1))]

lemma fillNode_append (E : List SavedConn) (c : SavedConn) (x : MNode) :
    fillNode (E ++ [c]) x =
      (if x.id = c.target_node
        then addInConn c.target_socket (c.source_node, c.source_socket) else id)
      ((if x.id = c.source_node
        then addOutConn c.source_socket (c.target_node, c.target_socket) else id)
       (fillNode E x)) := by
  by_cases hsrc : x.id = c.source_node <;> by_cases htgt : x.id = c.target_node
  · rw [if_pos hsrc, if_pos htgt]
    refine MNode_eq _ _ rfl rfl rfl rfl rfl rfl rfl ?_ ?_
    · show x.inputs.map (fillIn (E ++ [c]) x.id) = _
      rw [inputs_fill_append E c x htgt]
      rfl
    · show x.outputs.map (fillOut (E ++ [c]) x.id) = _
      rw [outputs_fill_append E c x hsrc]
      rfl
  · rw [if_pos hsrc, if_neg htgt]
    refine MNode_eq _ _ rfl rfl rfl rfl rfl rfl rfl ?_ ?_
    · show x.inputs.map (fillIn (E ++ [c]) x.id) = _
      rw [inputs_fill_append_other E c x htgt]
      rfl
    · show x.outputs.map (fillOut (E ++ [c]) x.id) = _
      rw [outputs_fill_append E c x hsrc]
      rfl
  · rw [if_neg hsrc, if_pos htgt]
    refine MNode_eq _ _ rfl rfl rfl rfl rfl rfl rfl ?_ ?_
    · show x.inputs.map (fillIn (E ++ [c]) x.id) = _
      rw [inputs_fill_append E c x htgt]
      rfl
    · show x.outputs.map (fillOut (E ++ [c]) x.id) = _
      rw [outputs_fill_append_other E c x hsrc]
      rfl
  · rw [if_neg hsrc, if_neg htgt]
    refine MNode_eq _ _ rfl rfl rfl rfl rfl rfl rfl ?_ ?_
    · show x.inputs.map (fillIn (E ++ [c]) x.id) = _
      rw [inputs_fill_append_other E c x htgt]
      rfl
    · show x.outputs.map (fillOut (E ++ [c]) x.id) = _
      rw [outputs_fill_append_other E c x hsrc]
      rfl

lemma updNode_map (ns : List MNode) (g : MNode → MNode)
    (hg : ∀ n, (g n).id = n.id) (i : Nat) (f : MNode → MNode) :
    updNode (ns.map g) i f =
      ns.map (fun n => if n.id = i then f (g n) else g n) := by
  unfold updNode
  rw [List.map_map]
  apply List.map_congr_left
  intro n _
  show (if (g n).id = i then f (g n) else g n) = _
  rw [hg n]

lemma find?_map_sock (socks : List MSocket) (f : MSocket → MSocket)
    (hf : ∀ s, (f s).name = s.name) (nm : String) :
    (socks.map f).find? (fun s => s.name = nm) =
      (socks.find? (fun s => s.name = nm)).map f := by
  rw [List.find?_map]
  have hp : ((fun s : MSocket => decide (s.name = nm)) ∘ f)
      = (fun s : MSocket => decide (s.name = nm)) := by
    funext s
    simp [Function.comp, hf]
  rw [hp]

lemma ite_comp {α : Type} (P : Prop) [Decidable P] (f : α → α) (y : α) :
    (if P then f else id) y = if P then f y else y := by
  by_cases h : P
  · rw [if_pos h, if_pos h]
  · rw [if_neg h, if_neg h]
    rfl

/-- Reduction of one deserialization `connect` step when both endpoints
resolve, the type check passes and the target input is still empty. -/
lemma applyConn_reduce (ns : List MNode) (c : SavedConn) (sn tn : MNode)
    (ss ts : MSocket)
    (h1 : ns.find? (fun x => x.id = c.source_node) = some sn)
    (h2 : ns.find? (fun x => x.id = c.target_node) = some tn)
    (h3 : getOut sn c.source_socket = some ss)
    (h4 : getIn tn c.target_socket = some ts)
    (hacc : ts.stype.accepts ss.stype = true)
    (hempty : ts.conns = []) :
    applyConn ns c =
      updNode (updNode ns c.source_node
        (addOutConn c.source_socket (c.target_node, c.target_socket)))
        c.target_node
        (addInConn c.target_socket (c.source_node, c.source_socket)) := by
  unfold applyConn
  split
  · rename_i sn' tn' hq1 hq2
    rw [h1] at hq1
    rw [h2] at hq2
    cases hq1
    cases hq2
    split
    · rename_i ss' ts' hq3 hq4
      rw [h3] at hq3
      rw [h4] at hq4
      cases hq3
      cases hq4
      rw [if_pos hacc]
      show updNode (updNode (if ts.conns ≠ []
          then severInput ns c.target_node c.target_socket else ns)
          c.source_node
          (addOutConn c.source_socket (c.target_node, c.target_socket)))
        c.target_node
        (addInConn c.target_socket (c.source_node, c.source_socket)) = _
      rw [if_neg (fun hne => hne hempty)]
    · rename_i hq34
      exact (hq34 ss ts h3 h4).elim
  · rename_i hq12
    exact (hq12 sn tn h1 h2).elim

/-- Each connection the deserializer applies advances the reconstruction by
exactly the corresponding raw edge: the target input was still empty (so no
sever happens) and the edge is recorded on both sides. -/
lemma applyConn_step {reg : String → Option OpDef} {p : MProject}
    (hser : Serializable reg p) {E R : List SavedConn} {c : SavedConn}
    (hsplit : rawConns p.nodes = E ++ c :: R) :
    applyConn (p.nodes.map (fillNode E)) c =
      p.nodes.map (fillNode (E ++ [c])) := by
  have hcraw : c ∈ rawConns p.nodes := by
    rw [hsplit]
    exact List.mem_append.mpr (Or.inr (List.mem_cons_self c R))
  rcases mem_rawConns.mp hcraw with ⟨n, hn, s, hs, tgt, htgt, hce⟩
  rcases hser.2.2.2.2.2.1 n hn s hs tgt htgt with
    ⟨m, hm, hmid, t, ht, htname, htconns, hacc⟩
  have hc1 : c.source_node = n.id := by rw [← hce]
  have hc2 : c.source_socket = s.name := by rw [← hce]
  have hc3 : c.target_node = m.id := by
    rw [← hce]
    exact hmid.symm
  have hc4 : c.target_socket = t.name := by
    rw [← hce]
    exact htname.symm
  have hfind0 : p.nodes.find? (fun x => x.id = n.id) = some n :=
    find?_of_nodup_keys (fun x => x.id) p.nodes hser.1 n hn
  have hfindm : p.nodes.find? (fun x => x.id = m.id) = some m :=
    find?_of_nodup_keys (fun x => x.id) p.nodes hser.1 m hm
  have hfindSrc : (p.nodes.map (fillNode E)).find?
      (fun x => x.id = c.source_node) = some (fillNode E n) := by
    rw [hc1, find?_map_id p.nodes (fillNode E) (fun _ => rfl) n.id, hfind0]
    rfl
  have hfindTgt : (p.nodes.map (fillNode E)).find?
      (fun x => x.id = c.target_node) = some (fillNode E m) := by
    rw [hc3, find?_map_id p.nodes (fillNode E) (fun _ => rfl) m.id, hfindm]
    rfl
  have hgout0 : n.outputs.find? (fun y => y.name = s.name) = some s :=
    find?_of_nodup_keys (fun y => y.name) n.outputs (hser.2.2.2.1 n hn).2 s hs
  have hgin0 : m.inputs.find? (fun y => y.name = t.name) = some t :=
    find?_of_nodup_keys (fun y => y.name) m.inputs (hser.2.2.2.1 m hm).1 t ht
  have hgetOut : getOut (fillNode E n) c.source_socket
      = some (fillOut E n.id s) := by
    rw [hc2]
    show (n.outputs.map (fillOut E n.id)).find? (fun y => y.name = s.name) = _
    rw [find?_map_sock n.outputs (fillOut E n.id) (fun _ => rfl) s.name, hgout0]
    rfl
  have hgetIn : getIn (fillNode E m) c.target_socket
      = some (fillIn E m.id t) := by
    rw [hc4]
    show (m.inputs.map (fillIn E m.id)).find? (fun y => y.name = t.name) = _
    rw [find?_map_sock m.inputs (fillIn E m.id) (fun _ => rfl) t.name, hgin0]
    rfl
  have hempty : (fillIn E m.id t).conns = [] := by
    show ((E.filter (fun x => x.target_node == m.id
      && x.target_socket == t.name)).map
        (fun x => (x.source_node, x.source_socket))) = []
    rw [filter_target_prefix_nil hser hm ht hsplit hc3 hc4]
    rfl
  have hacc' : (fillIn E m.id t).stype.accepts (fillOut E n.id s).stype
      = true := hacc
  rw [applyConn_reduce (p.nodes.map (fillNode E)) c (fillNode E n)
    (fillNode E m) (fillOut E n.id s) (fillIn E m.id t)
    hfindSrc hfindTgt hgetOut hgetIn hacc' hempty]
  rw [updNode_map p.nodes (fillNode E) (fun _ => rfl) c.source_node
    (addOutConn c.source_socket (c.target_node, c.target_socket))]
  rw [updNode_map p.nodes
    (fun x => if x.id = c.source_node
      then addOutConn c.source_socket (c.target_node, c.target_socket)
        (fillNode E x)
      else fillNode E x)
    (fun x => by
      show (if x.id = c.source_node
        then addOutConn c.source_socket (c.target_node, c.target_socket)
          (fillNode E x)
        else fillNode E x).id = x.id
      by_cases hx : x.id = c.source_node
      · rw [if_pos hx]
        rfl
      · rw [if_neg hx]
        rfl)
    c.target_node
    (addInConn c.target_socket (c.source_node, c.source_socket))]
  apply List.map_congr_left
  intro x _
  rw [fillNode_append, ite_comp, ite_comp]

/-- Applying the whole remaining raw edge list advances the reconstruction
to the fully filled graph. -/
lemma foldl_applyConn_fill {reg : String → Option OpDef} {p : MProject}
    (hser : Serializable reg p) :
    ∀ (R E : List SavedConn), rawConns p.nodes = E ++ R →
      R.foldl applyConn (p.nodes.map (fillNode E)) =
        p.nodes.map (fillNode (rawConns p.nodes)) := by
  intro R
  induction R with
  | nil =>
    intro E h
    rw [List.foldl_nil, h, List.append_nil]
  | cons c R2 ih =>
    intro E h
    rw [List.foldl_cons, applyConn_step hser h,
      ih (E ++ [c]) (by rw [h, List.append_assoc]; rfl)]

lemma mapM_map_ok {α β γ : Type} (σ : α → β) (f : β → Except String γ)
    (g : α → γ) :
    ∀ (l : List α), (∀ a ∈ l, f (σ a) = .ok (g a)) →
      (l.map σ).mapM f = .ok (l.map g) := by
  intro l
  induction l with
  | nil => intro _; rfl
  | cons a rest ih =>
    intro h
    rw [List.map_cons, List.mapM_cons, h a (List.mem_cons_self a rest),
      ih (fun x hx => h x (List.mem_cons_of_mem _ hx))]
    rfl

/-- Rebuilding a node from its archived form and its (faithful) operation
declaration yields exactly its unconnected reconstruction state. -/
lemma buildNode_fill (n : MNode) (defaults : List (String × PyVal))
    (hnames : defaults.map Prod.fst = n.params.map Prod.fst)
    (hnodup : (n.params.map Prod.fst).Nodup) :
    buildNode ⟨n.inputs.map (fun u => (u.name, u.stype)),
      n.outputs.map (fun u => (u.name, u.stype)), defaults⟩
      ⟨n.id, n.op, n.position, n.params, n.state⟩ = fillNode [] n := by
  show (⟨n.id, n.op, n.position,
    defaults.map (fun pd =>
      match n.params.lookup pd.1 with
      | some v => (pd.1, v)
      | none => pd),
    n.state, true, [],
    (n.inputs.map (fun u => (u.name, u.stype))).map
      (fun q => ⟨q.1, q.2, []⟩),
    (n.outputs.map (fun u => (u.name, u.stype))).map
      (fun q => ⟨q.1, q.2, []⟩)⟩ : MNode) = fillNode [] n
  rw [restore_params defaults n.params hnames hnodup,
    List.map_map, List.map_map]
  unfold fillNode
  rfl

lemma deserializeGraph_eq {reg : String → Option OpDef} {gd : GraphData}
    {ns0 : List MNode}
    (h : gd.nodes.mapM (fun sd =>
      match reg sd.operation with
      | some od => Except.ok (buildNode od sd)
      | none => Except.error ("Cannot resolve operation class: "
          ++ sd.operation)) = .ok ns0) :
    deserializeGraph reg gd = .ok
      ⟨gd.connections.foldl applyConn ns0,
        gd.auto_compute, gd.autosave_interval_minutes⟩ := by
  unfold deserializeGraph
  rw [h]
  rfl

/-- Deserializing the archived graph of a serializable project rebuilds
every node with its runtime reset and the full connection topology. -/
lemma deserializeGraph_save {reg : String → Option OpDef} {p : MProject}
    (hser : Serializable reg p) :
    deserializeGraph reg (serializeGraph p) = .ok
      ⟨p.nodes.map (fillNode (rawConns p.nodes)),
        p.auto_compute, p.autosave_interval_minutes⟩ := by
  have hmapM : (serializeGraph p).nodes.mapM (fun sd =>
      match reg sd.operation with
      | some od => Except.ok (buildNode od sd)
      | none => Except.error ("Cannot resolve operation class: "
          ++ sd.operation)) = .ok (p.nodes.map (fillNode [])) := by
    show (p.nodes.map (fun n =>
      (⟨n.id, n.op, n.position, n.params, n.state⟩ : SavedNode))).mapM _ = _
    apply mapM_map_ok
    intro n hn
    rcases hser.2.1 n hn with ⟨defaults, hreg, hnames⟩
    show (match reg n.op with
      | some od => Except.ok (buildNode od
          ⟨n.id, n.op, n.position, n.params, n.state⟩)
      | none => Except.error ("Cannot resolve operation class: " ++ n.op))
      = Except.ok (fillNode [] n)
    rw [hreg]
    exact congrArg Except.ok
      (buildNode_fill n defaults hnames (hser.2.2.1 n hn))
  have h1 := deserializeGraph_eq hmapM
  rw [h1]
  have hcc : (serializeGraph p).connections = rawConns p.nodes := by
    show collectConns p.nodes = rawConns p.nodes
    exact collectConns_of_nodup p.nodes hser.2.2.2.2.1
  rw [hcc,
    foldl_applyConn_fill hser (rawConns p.nodes) [] (by rw [List.nil_append])]
  rfl

lemma restoreCache_id (b : List (Nat × Blob)) (n : MNode) :
    (restoreCache b n).id = n.id := by
  unfold restoreCache
  split
  · split <;> rfl
  · rfl

lemma restoreCache_params (b : List (Nat × Blob)) (n : MNode) :
    (restoreCache b n).params = n.params := by
  unfold restoreCache
  split
  · split <;> rfl
  · rfl

lemma restoreCache_outputs (b : List (Nat × Blob)) (n : MNode) :
    (restoreCache b n).outputs = n.outputs := by
  unfold restoreCache
  split
  · split <;> rfl
  · rfl

lemma rawConns_congr (h : MNode → MNode) :
    ∀ (l : List MNode), (∀ n ∈ l, (h n).id = n.id) →
      (∀ n ∈ l, (h n).outputs = n.outputs) →
      rawConns (l.map h) = rawConns l := by
  intro l
  induction l with
  | nil => intro _ _; rfl
  | cons a t ih =>
    intro hid hout
    have e1 : rawConns (h a :: t.map h) =
        ((h a).outputs.flatMap (fun s => s.conns.map
          (fun c => (⟨(h a).id, s.name, c.1, c.2⟩ : SavedConn))))
        ++ rawConns (t.map h) := by
      rw [rawConns, List.flatMap_cons]
      rfl
    have e2 : rawConns (a :: t) =
        (a.outputs.flatMap (fun s => s.conns.map
          (fun c => (⟨a.id, s.name, c.1, c.2⟩ : SavedConn))))
        ++ rawConns t := by
      rw [rawConns, List.flatMap_cons]
      rfl
    rw [List.map_cons, e1, e2, hid a (List.mem_cons_self a t),
      hout a (List.mem_cons_self a t),
      ih (fun n hn => hid n (List.mem_cons_of_mem _ hn))
        (fun n hn => hout n (List.mem_cons_of_mem _ hn))]

lemma anyT_accepts (x : SType) : SType.anyT.accepts x = true := by
  unfold SType.accepts
  rfl

/-- C7: for every serializable project, `ProjectSerializer.save` followed by
`ProjectSerializer.load` succeeds and reproduces the same node ids, the same
parameter values on each node, and the same connection topology. -/
theorem save_load_roundtrip (reg : String → Option OpDef) (p : MProject)
    (hser : Serializable reg p) :
    ∃ q, load reg (save p) = .ok q
      ∧ q.nodes.map (fun n => n.id) = p.nodes.map (fun n => n.id)
      ∧ q.nodes.map (fun n => n.params) = p.nodes.map (fun n => n.params)
      ∧ collectConns q.nodes = collectConns p.nodes := by
  have hdes : deserializeGraph reg (save p).1 = .ok
      ⟨p.nodes.map (fillNode (rawConns p.nodes)),
        p.auto_compute, p.autosave_interval_minutes⟩ :=
    deserializeGraph_save hser
  refine ⟨⟨(p.nodes.map (fillNode (rawConns p.nodes))).map
      (restoreCache (save p).2), p.auto_compute, p.autosave_interval_minutes⟩,
    ?_, ?_, ?_, ?_⟩
  · unfold load
    rw [hdes]
    rfl
  · show ((p.nodes.map (fillNode (rawConns p.nodes))).map
      (restoreCache (save p).2)).map (fun n => n.id) = _
    rw [List.map_map, List.map_map]
    apply List.map_congr_left
    intro n _
    show (restoreCache (save p).2 (fillNode (rawConns p.nodes) n)).id = n.id
    rw [restoreCache_id]
    rfl
  · show ((p.nodes.map (fillNode (rawConns p.nodes))).map
      (restoreCache (save p).2)).map (fun n => n.params) = _
    rw [List.map_map, List.map_map]
    apply List.map_congr_left
    intro n _
    show (restoreCache (save p).2
      (fillNode (rawConns p.nodes) n)).params = n.params
    rw [restoreCache_params]
    rfl
  · show collectConns ((p.nodes.map (fillNode (rawConns p.nodes))).map
      (restoreCache (save p).2)) = collectConns p.nodes
    have hraw : rawConns ((p.nodes.map (fillNode (rawConns p.nodes))).map
        (restoreCache (save p).2)) = rawConns p.nodes := by
      rw [List.map_map]
      apply rawConns_congr
      · intro n _
        show (restoreCache (save p).2
          (fillNode (rawConns p.nodes) n)).id = n.id
        rw [restoreCache_id]
        rfl
      · intro n hn
        show (restoreCache (save p).2
          (fillNode (rawConns p.nodes) n)).outputs = n.outputs
        rw [restoreCache_outputs, fillNode_full hser hn]
    rw [collectConns_eq_dedup, collectConns_eq_dedup, hraw]

/-- Witness registry for the round-trip: a source operation with one output
and a sink operation with one input, both untyped. -/
def rtReg : String → Option OpDef := fun op =>
  if op = "src" then some ⟨[], [("o", SType.anyT)], []⟩
  else if op = "dst" then some ⟨[("i", SType.anyT)], [], []⟩
  else none

/-- Witness project: two nodes, one connection `0.o → 1.i`, one cached
output. -/
def rtP : MProject :=
  ⟨[⟨0, "src", (0, 0), [], .valid, false,
      [("o", PyVal.raw (RawData.text "v"))],
      [], [⟨"o", SType.anyT, [(1, "i")]⟩]⟩,
    ⟨1, "dst", (0, 1), [], .dirty, true, [],
      [⟨"i", SType.anyT, [(0, "o")]⟩], []⟩],
   true, 10⟩

/-- The witness project is serializable. -/
lemma rtSer : Serializable rtReg rtP := by
  refine ⟨by decide, ?_, by decide, by decide, by decide, ?_, ?_⟩
  · intro n hn
    rcases List.mem_cons.mp hn with rfl | hn
    · exact ⟨[], rfl, rfl⟩
    · rcases List.mem_cons.mp hn with rfl | hn
      · exact ⟨[], rfl, rfl⟩
      · cases hn
  · intro n hn
    rcases List.mem_cons.mp hn with rfl | hn
    · intro s hs c hc
      rcases List.mem_cons.mp hs with rfl | hs
      · rcases List.mem_cons.mp hc with rfl | hc
        · exact ⟨⟨1, "dst", (0, 1), [], .dirty, true, [],
            [⟨"i", SType.anyT, [(0, "o")]⟩], []⟩,
            List.mem_cons_of_mem _ (List.mem_cons_self _ _),
            rfl,
            ⟨"i", SType.anyT, [(0, "o")]⟩,
            List.mem_cons_self _ _,
            rfl, rfl, anyT_accepts _⟩
        · cases hc
      · cases hs
    · rcases List.mem_cons.mp hn with rfl | hn
      · intro s hs
        cases hs
      · cases hn
  · intro n hn
    rcases List.mem_cons.mp hn with rfl | hn
    · intro t ht
      cases ht
    · rcases List.mem_cons.mp hn with rfl | hn
      · intro t ht c hc
        rcases List.mem_cons.mp ht with rfl | ht
        · rcases List.mem_cons.mp hc with rfl | hc
          · exact ⟨⟨0, "src", (0, 0), [], .valid, false,
              [("o", PyVal.raw (RawData.text "v"))],
              [], [⟨"o", SType.anyT, [(1, "i")]⟩]⟩,
              List.mem_cons_self _ _,
              rfl,
              ⟨"o", SType.anyT, [(1, "i")]⟩,
              List.mem_cons_self _ _,
              rfl, List.mem_cons_self _ _⟩
          · cases hc
        · cases ht
      · cases hn

/-- C7 (witness): the round-trip theorem applied to the concrete two-node
project. -/
theorem save_load_roundtrip_witness :
    ∃ q, load rtReg (save rtP) = .ok q
      ∧ q.nodes.map (fun n => n.id) = rtP.nodes.map (fun n => n.id)
      ∧ q.nodes.map (fun n => n.params) = rtP.nodes.map (fun n => n.params)
      ∧ collectConns q.nodes = collectConns rtP.nodes :=
  save_load_roundtrip rtReg rtP rtSer

/-! ## Topological sort (`core/engine.py`,
`ExecutionPlanner.topological_sort`, lines 42–84)

Kahn's algorithm over the planned node list (all nodes, or the dirty ones
under `dirty_only`); edges whose target is outside the planned id set are
skipped.  Python's insertion-ordered `dict` makes the initial queue exactly
the planned nodes of initial in-degree zero, in list order (keys of
in-degree zero are inserted only by the `setdefault` pass, which follows
node order; keys inserted by the increment pass have positive degree).
`in_degree` values are embedded as `Int`, like Python's `int`; the
unbounded `while queue` loop is embedded with fuel `planned.length`,
shown sufficient in `kahnLoop_run` (each iteration moves one new node id
into the result). -/

def planned (nodes : List ENode) (dirtyOnly : Bool) : List ENode :=
  if dirtyOnly then nodes.filter (fun n => n.dirty) else nodes

/-- The planned children of a node: output connections into the planned id
set, with multiplicity, in socket order. -/
def targetsIn (ids : List Nat) (n : ENode) : List Nat :=
  n.outConns.filter (fun c => c ∈ ids)

def initIndegN (pl : List ENode) (ids : List Nat) (v : Nat) : Nat :=
  (pl.map (fun n => (targetsIn ids n).count v)).sum

def initIndeg (pl : List ENode) (ids : List Nat) (v : Nat) : Int :=
  (initIndegN pl ids v : Int)

def adjOf (pl : List ENode) (ids : List Nat) (i : Nat) : List Nat :=
  match pl.find? (fun n => n.id = i) with
  | some n => targetsIn ids n
  | none => []

/-- The inner `for child_id in adjacency[nid]` loop: decrement each child's
in-degree, appending a child to the queue when its degree reaches zero. -/
def decChildren (adj : List Nat) (st : (Nat → Int) × List Nat) :
    (Nat → Int) × List Nat :=
  adj.foldl (fun st ch =>
    ((fun v => if v = ch then st.1 v - 1 else st.1 v),
     if st.1 ch - 1 = 0 then st.2 ++ [ch] else st.2)) st

/-- The `while queue` loop of Kahn's algorithm (FIFO pop from the front). -/
def kahnLoop (adj : Nat → List Nat) :
    Nat → (Nat → Int) → List Nat → List Nat → List Nat
  | 0, _, _, acc => acc
  | fuel + 1, indeg, queue, acc =>
    match queue with
    | [] => acc
    | nid :: rest =>
      let st := decChildren (adj nid) (indeg, rest)
      kahnLoop adj fuel st.1 st.2 (acc ++ [nid])

/-- `ExecutionPlanner.topological_sort`, returning the execution order as a
list of node ids, or the scheduling error on a consumed/produced size
mismatch. -/
def topologicalSort (nodes : List ENode) (dirtyOnly : Bool) :
    Except String (List Nat) :=
  let pl := planned nodes dirtyOnly
  let ids := pl.map (fun n => n.id)
  let indeg0 := initIndeg pl ids
  let queue0 := ids.filter (fun i => indeg0 i = 0)
  let res := kahnLoop (adjOf pl ids) pl.length indeg0 queue0 []
  if res.length ≠ pl.length
  then .error "Cycle detected in graph — cannot schedule execution"
  else .ok res

/-- Edge relation of the planned subgraph: some planned node with id `a`
has an output connection to planned id `b`. -/
def KEdge (pl : List ENode) (a b : Nat) : Prop :=
  ∃ n ∈ pl, n.id = a ∧ b ∈ targetsIn (pl.map (fun m => m.id)) n

/-- In-edges into `v` contributed by sources already in `done`. -/
def fromCount (pl : List ENode) (ids done : List Nat) (v : Nat) : Nat :=
  (pl.map (fun n => if n.id ∈ done then (targetsIn ids n).count v else 0)).sum

lemma decChildren_fst : ∀ (A : List Nat) (indeg : Nat → Int) (q : List Nat)
    (v : Nat), (decChildren A (indeg, q)).1 v = indeg v - A.count v := by
  intro A
  induction A with
  | nil =>
    intro indeg q v
    show indeg v = indeg v - (([] : List Nat).count v : Int)
    rw [List.count_nil]
    simp
  | cons ch A2 ih =>
    intro indeg q v
    show (decChildren A2 ((fun v => if v = ch then indeg v - 1 else indeg v),
      if indeg ch - 1 = 0 then q ++ [ch] else q)).1 v
      = indeg v - ((ch :: A2).count v : Int)
    rw [ih, List.count_cons]
    by_cases hv : v = ch
    · rw [if_pos hv]
      simp only [beq_iff_eq, if_pos hv]
      push_cast
      omega
    · rw [if_neg hv]
      simp only [beq_iff_eq, if_neg hv]
      push_cast
      omega

lemma decChildren_snd : ∀ (A : List Nat) (indeg : Nat → Int) (q : List Nat),
    ∃ nq, (decChildren A (indeg, q)).2 = q ++ nq ∧ nq.Nodup ∧
      ∀ v, v ∈ nq ↔ (1 ≤ indeg v ∧ indeg v ≤ (A.count v : Int)) := by
  intro A
  induction A with
  | nil =>
    intro indeg q
    refine ⟨[], by simp [decChildren], List.nodup_nil, ?_⟩
    intro v
    simp only [List.not_mem_nil, List.count_nil, false_iff, not_and]
    intro h1
    push_cast
    omega
  | cons ch A2 ih =>
    intro indeg q
    by_cases hch : indeg ch - 1 = 0
    · rcases ih (fun v => if v = ch then indeg v - 1 else indeg v)
        (q ++ [ch]) with ⟨nq2, he, hnd2, hiff2⟩
      refine ⟨ch :: nq2, ?_, ?_, ?_⟩
      · show (decChildren A2
          ((fun v => if v = ch then indeg v - 1 else indeg v),
            if indeg ch - 1 = 0 then q ++ [ch] else q)).2 = q ++ (ch :: nq2)
        rw [if_pos hch, he, List.append_assoc]
        rfl
      · rw [List.nodup_cons]
        refine ⟨?_, hnd2⟩
        intro hmem
        have h2 := (hiff2 ch).mp hmem
        rw [if_pos rfl] at h2
        omega
      · intro v
        rw [List.mem_cons, hiff2 v]
        by_cases hv : v = ch
        · rw [if_pos hv, hv, List.count_cons_self]
          constructor
          · intro _
            have h0 : (0 : Int) ≤ (A2.count ch : Int) := Int.natCast_nonneg _
            push_cast
            omega
          · intro _
            exact Or.inl rfl
        · rw [if_neg hv, List.count_cons_of_ne hv]
          constructor
          · intro h
            rcases h with h | h
            · exact absurd h hv
            · exact h
          · intro h
            exact Or.inr h
    · rcases ih (fun v => if v = ch then indeg v - 1 else indeg v) q with
        ⟨nq2, he, hnd2, hiff2⟩
      refine ⟨nq2, ?_, hnd2, ?_⟩
      · show (decChildren A2
          ((fun v => if v = ch then indeg v - 1 else indeg v),
            if indeg ch - 1 = 0 then q ++ [ch] else q)).2 = q ++ nq2
        rw [if_neg hch, he]
      · intro v
        rw [hiff2 v]
        by_cases hv : v = ch
        · rw [if_pos hv, hv, List.count_cons_self]
          push_cast
          constructor
          · intro h
            omega
          · intro h
            omega
        · rw [if_neg hv, List.count_cons_of_ne hv]

lemma sum_map_le {α : Type} (l : List α) (f g : α → Nat)
    (h : ∀ x ∈ l, f x ≤ g x) : (l.map f).sum ≤ (l.map g).sum := by
  induction l with
  | nil => exact Nat.le_refl 0
  | cons a t ih =>
    rw [List.map_cons, List.map_cons, List.sum_cons, List.sum_cons]
    exact Nat.add_le_add (h a (List.mem_cons_self a t))
      (ih (fun x hx => h x (List.mem_cons_of_mem _ hx)))

lemma sum_map_add {α : Type} (l : List α) (f g : α → Nat) :
    (l.map (fun x => f x + g x)).sum = (l.map f).sum + (l.map g).sum := by
  induction l with
  | nil => rfl
  | cons a t ih =>
    rw [List.map_cons, List.map_cons, List.map_cons, List.sum_cons,
      List.sum_cons, List.sum_cons, ih]
    omega

lemma sum_map_zero_of_eq {α : Type} (l : List α) (f g : α → Nat)
    (hle : ∀ x ∈ l, f x ≤ g x)
    (h : (l.map f).sum = (l.map g).sum) :
    ∀ x ∈ l, f x < g x → False := by
  induction l with
  | nil => intro x hx; cases hx
  | cons a t ih =>
    rw [List.map_cons, List.map_cons, List.sum_cons, List.sum_cons] at h
    have hta : f a ≤ g a := hle a (List.mem_cons_self a t)
    have htail : (t.map f).sum ≤ (t.map g).sum :=
      sum_map_le t f g (fun x hx => hle x (List.mem_cons_of_mem _ hx))
    intro x hx hlt
    rcases List.mem_cons.mp hx with rfl | hx
    · omega
    · exact ih (fun y hy => hle y (List.mem_cons_of_mem _ hy)) (by omega)
        x hx hlt

lemma sum_if_single : ∀ (pl : List ENode), (pl.map (fun n => n.id)).Nodup →
    ∀ n ∈ pl, ∀ (g : ENode → Nat),
    (pl.map (fun m => if m.id = n.id then g m else 0)).sum = g n := by
  intro pl
  induction pl with
  | nil => intro _ n hn; cases hn
  | cons a t ih =>
    intro hnd n hn g
    rw [List.map_cons, List.nodup_cons] at hnd
    rw [List.map_cons, List.sum_cons]
    rcases List.mem_cons.mp hn with rfl | hn
    · rw [if_pos rfl]
      have hz : (t.map (fun m => if m.id = n.id then g m else 0)).sum = 0 := by
        apply List.sum_eq_zero
        intro x hx
        rcases List.mem_map.mp hx with ⟨m, hm, rfl⟩
        have hne : ¬ m.id = n.id := by
          intro he
          exact hnd.1 (he ▸ List.mem_map_of_mem (fun n => n.id) hm)
        rw [if_neg hne]
      rw [hz]
      exact Nat.add_zero _
    · have hne : ¬ a.id = n.id := by
        intro he
        exact hnd.1 (he ▸ List.mem_map_of_mem (fun n => n.id) hn)
      rw [if_neg hne, ih hnd.2 n hn g, Nat.zero_add]

lemma fromCount_nil (pl : List ENode) (ids : List Nat) (v : Nat) :
    fromCount pl ids [] v = 0 := by
  apply List.sum_eq_zero
  intro x hx
  rcases List.mem_map.mp hx with ⟨m, _, rfl⟩
  rw [if_neg (List.not_mem_nil m.id)]

lemma fromCount_le_init (pl : List ENode) (ids done : List Nat) (v : Nat) :
    fromCount pl ids done v ≤ initIndegN pl ids v := by
  apply sum_map_le
  intro m _
  by_cases h : m.id ∈ done
  · rw [if_pos h]
  · rw [if_neg h]
    exact Nat.zero_le _

lemma fromCount_snoc (pl : List ENode) (ids done : List Nat)
    (hnd : (pl.map (fun n => n.id)).Nodup) {n : ENode} (hn : n ∈ pl)
    (hnotin : n.id ∉ done) (v : Nat) :
    fromCount pl ids (done ++ [n.id]) v =
      fromCount pl ids done v + (targetsIn ids n).count v := by
  unfold fromCount
  have hpt : ∀ m ∈ pl,
      (if m.id ∈ done ++ [n.id] then (targetsIn ids m).count v else 0) =
        (if m.id ∈ done then (targetsIn ids m).count v else 0)
        + (if m.id = n.id then (targetsIn ids m).count v else 0) := by
    intro m _
    by_cases h1 : m.id ∈ done
    · have h2 : ¬ m.id = n.id := fun he => hnotin (he ▸ h1)
      rw [if_pos (List.mem_append.mpr (Or.inl h1)), if_pos h1, if_neg h2,
        Nat.add_zero]
    · by_cases h2 : m.id = n.id
      · rw [if_pos (List.mem_append.mpr (Or.inr (h2 ▸ List.mem_singleton_self _))),
          if_neg h1, if_pos h2, Nat.zero_add]
      · rw [if_neg (by
          intro hmem
          rcases List.mem_append.mp hmem with h | h
          · exact h1 h
          · exact h2 (List.mem_singleton.mp h)), if_neg h1, if_neg h2]
  rw [List.map_congr_left hpt, sum_map_add,
    sum_if_single pl hnd n hn (fun m => (targetsIn ids m).count v)]

/-- If every in-edge of `v` comes from `done` (count equality), then every
planned source of an edge into `v` lies in `done`. -/
lemma sources_in_done (pl : List ENode) (ids done : List Nat) (v : Nat)
    (h : fromCount pl ids done v = initIndegN pl ids v) :
    ∀ m ∈ pl, m.id ∉ done → (targetsIn ids m).count v = 0 := by
  intro m hm hnot
  by_contra hne
  refine sum_map_zero_of_eq pl
    (fun m => if m.id ∈ done then (targetsIn ids m).count v else 0)
    (fun m => (targetsIn ids m).count v) ?_ h m hm ?_
  · intro x _
    dsimp only
    by_cases hx : x.id ∈ done
    · rw [if_pos hx]
    · rw [if_neg hx]
      exact Nat.zero_le _
  · dsimp only
    rw [if_neg hnot]
    omega

/-- The loop invariant of Kahn's algorithm: `done` is the emitted prefix,
`queue` the pending frontier, `indeg` the current in-degree table. -/
structure KInv (pl : List ENode) (done queue : List Nat)
    (indeg : Nat → Int) : Prop where
  dnd : done.Nodup
  dsub : ∀ v ∈ done, v ∈ pl.map (fun n => n.id)
  qsub : ∀ v ∈ queue, v ∈ pl.map (fun n => n.id)
  qd : ∀ v ∈ queue, v ∉ done
  qnd : queue.Nodup
  ind : ∀ v, indeg v =
    initIndeg pl (pl.map (fun n => n.id)) v
      - (fromCount pl (pl.map (fun n => n.id)) done v : Int)
  q0 : ∀ v ∈ queue, indeg v = 0
  d0 : ∀ v ∈ done, indeg v ≤ 0
  q6 : ∀ v ∈ pl.map (fun n => n.id), v ∉ done → indeg v = 0 → v ∈ queue
  ord : ∀ a b, KEdge pl a b → b ∈ done →
    a ∈ done ∧ done.indexOf a < done.indexOf b

lemma kahn_init (pl : List ENode) (hnd : (pl.map (fun n => n.id)).Nodup) :
    KInv pl []
      ((pl.map (fun n => n.id)).filter
        (fun i => initIndeg pl (pl.map (fun n => n.id)) i = 0))
      (initIndeg pl (pl.map (fun n => n.id))) := by
  refine ⟨List.nodup_nil, ?_, ?_, ?_, ?_, ?_, ?_, ?_, ?_, ?_⟩
  · intro v hv
    cases hv
  · intro v hv
    exact (List.mem_filter.mp hv).1
  · intro v _ hv
    cases hv
  · exact hnd.filter _
  · intro v
    rw [fromCount_nil]
    simp
  · intro v hv
    have h2 := (List.mem_filter.mp hv).2
    simpa using h2
  · intro v hv
    cases hv
  · intro v hv hd h0
    exact List.mem_filter.mpr ⟨hv, by simpa using h0⟩
  · intro a b _ hb
    cases hb

lemma kahn_step (pl : List ENode) (hnd : (pl.map (fun n => n.id)).Nodup)
    {done rest : List Nat} {indeg : Nat → Int} {nid : Nat}
    (hinv : KInv pl done (nid :: rest) indeg) :
    KInv pl (done ++ [nid])
      (decChildren (adjOf pl (pl.map (fun n => n.id)) nid) (indeg, rest)).2
      (decChildren (adjOf pl (pl.map (fun n => n.id)) nid) (indeg, rest)).1 := by
  have hnidids : nid ∈ pl.map (fun n => n.id) :=
    hinv.qsub nid (List.mem_cons_self _ _)
  obtain ⟨n, hn, hnid⟩ := List.mem_map.mp hnidids
  have hfind : pl.find? (fun m => m.id = nid) = some n := by
    have h0 : pl.find? (fun m => m.id = n.id) = some n :=
      find?_of_nodup_keys (fun m => m.id) pl hnd n hn
    rw [hnid] at h0
    exact h0
  have hA : adjOf pl (pl.map (fun n => n.id)) nid
      = targetsIn (pl.map (fun n => n.id)) n := by
    unfold adjOf
    rw [hfind]
  have hnidq0 : indeg nid = 0 := hinv.q0 nid (List.mem_cons_self _ _)
  have hniddone : nid ∉ done := hinv.qd nid (List.mem_cons_self _ _)
  have hnidrest : nid ∉ rest := (List.nodup_cons.mp hinv.qnd).1
  have hrestnd : rest.Nodup := (List.nodup_cons.mp hinv.qnd).2
  have hsnoc : ∀ v, fromCount pl (pl.map (fun n => n.id)) (done ++ [nid]) v
      = fromCount pl (pl.map (fun n => n.id)) done v
        + (targetsIn (pl.map (fun n => n.id)) n).count v := by
    intro v
    have h1 := fromCount_snoc pl (pl.map (fun n => n.id)) done hnd hn
      (by rw [hnid]; exact hniddone) v
    rw [hnid] at h1
    exact h1
  have hge : ∀ v, ((targetsIn (pl.map (fun n => n.id)) n).count v : Int)
      ≤ indeg v := by
    intro v
    have h1 := fromCount_le_init pl (pl.map (fun n => n.id)) (done ++ [nid]) v
    rw [hsnoc v] at h1
    have h2 := hinv.ind v
    unfold initIndeg at h2
    omega
  rcases decChildren_snd (adjOf pl (pl.map (fun n => n.id)) nid) indeg rest
    with ⟨nq, hq2, hnqnd, hqiff⟩
  have hfst := decChildren_fst (adjOf pl (pl.map (fun n => n.id)) nid)
    indeg rest
  rw [hA] at hq2 hfst
  have hqiff2 : ∀ v, v ∈ nq ↔ (1 ≤ indeg v ∧ indeg v
      = ((targetsIn (pl.map (fun n => n.id)) n).count v : Int)) := by
    intro v
    rw [hqiff v, hA]
    constructor
    · intro h
      exact ⟨h.1, le_antisymm h.2 (hge v)⟩
    · intro h
      exact ⟨h.1, le_of_eq h.2⟩
  rw [hA]
  refine ⟨?_, ?_, ?_, ?_, ?_, ?_, ?_, ?_, ?_, ?_⟩
  · exact List.nodup_append.mpr ⟨hinv.dnd, List.nodup_singleton _,
      by
        intro a ha hb
        rw [List.mem_singleton] at hb
        subst hb
        exact hniddone ha⟩
  · intro v hv
    rcases List.mem_append.mp hv with hv | hv
    · exact hinv.dsub v hv
    · rw [List.mem_singleton] at hv
      subst hv
      exact hnidids
  · rw [hq2]
    intro v hv
    rcases List.mem_append.mp hv with hv | hv
    · exact hinv.qsub v (List.mem_cons_of_mem _ hv)
    · have h1 := (hqiff2 v).mp hv
      have hc : 0 < (targetsIn (pl.map (fun n => n.id)) n).count v := by
        omega
      have hmem : v ∈ targetsIn (pl.map (fun n => n.id)) n :=
        List.count_pos_iff_mem.mp hc
      have h2 := List.mem_filter.mp hmem
      exact of_decide_eq_true h2.2
  · rw [hq2]
    intro v hv hvd
    rcases List.mem_append.mp hv with hv | hv
    · rcases List.mem_append.mp hvd with hvd | hvd
      · exact hinv.qd v (List.mem_cons_of_mem _ hv) hvd
      · rw [List.mem_singleton] at hvd
        subst hvd
        exact hnidrest hv
    · have h1 := (hqiff2 v).mp hv
      rcases List.mem_append.mp hvd with hvd | hvd
      · have h2 := hinv.d0 v hvd
        omega
      · rw [List.mem_singleton] at hvd
        subst hvd
        omega
  · rw [hq2]
    refine List.nodup_append.mpr ⟨hrestnd, hnqnd, ?_⟩
    intro v hv hv2
    have h1 := hinv.q0 v (List.mem_cons_of_mem _ hv)
    have h2 := (hqiff2 v).mp hv2
    omega
  · intro v
    rw [hfst v, hinv.ind v, hsnoc v]
    unfold initIndeg
    push_cast
    ring
  · rw [hq2]
    intro v hv
    rw [hfst v]
    rcases List.mem_append.mp hv with hv | hv
    · have h1 := hinv.q0 v (List.mem_cons_of_mem _ hv)
      have h2 := hge v
      omega
    · have h1 := (hqiff2 v).mp hv
      omega
  · intro v hv
    rw [hfst v]
    rcases List.mem_append.mp hv with hv | hv
    · have h1 := hinv.d0 v hv
      omega
    · rw [List.mem_singleton] at hv
      subst hv
      omega
  · intro v hvids hvd h0
    have hvdone : v ∉ done := fun h => hvd (List.mem_append.mpr (Or.inl h))
    have hvnid : ¬ v = nid := fun h =>
      hvd (List.mem_append.mpr (Or.inr (h ▸ List.mem_singleton_self _)))
    rw [hfst v] at h0
    by_cases hc : (targetsIn (pl.map (fun n => n.id)) n).count v = 0
    · have hz : indeg v = 0 := by
        rw [hc] at h0
        omega
      have h1 := hinv.q6 v hvids hvdone hz
      rcases List.mem_cons.mp h1 with h1 | h1
      · exact absurd h1 hvnid
      · rw [hq2]
        exact List.mem_append.mpr (Or.inl h1)
    · have h1 : v ∈ nq := by
        rw [hqiff2 v]
        omega
      rw [hq2]
      exact List.mem_append.mpr (Or.inr h1)
  · intro a b hedge hb
    rcases List.mem_append.mp hb with hb | hb
    · have hold := hinv.ord a b hedge hb
      refine ⟨List.mem_append.mpr (Or.inl hold.1), ?_⟩
      rw [List.indexOf_append_of_mem hold.1, List.indexOf_append_of_mem hb]
      exact hold.2
    · rw [List.mem_singleton] at hb
      subst hb
      have hfc : fromCount pl (pl.map (fun n => n.id)) done b
          = initIndegN pl (pl.map (fun n => n.id)) b := by
        have h1 := hinv.ind b
        unfold initIndeg at h1
        omega
      have hsrc := sources_in_done pl (pl.map (fun n => n.id)) done b hfc
      rcases hedge with ⟨m, hm, hmid, hbt⟩
      have hcount : 0 < (targetsIn (pl.map (fun n => n.id)) m).count b :=
        List.count_pos_iff_mem.mpr hbt
      have hmdone : m.id ∈ done := by
        by_contra hmd
        have h2 := hsrc m hm hmd
        omega
      have hadone : a ∈ done := hmid ▸ hmdone
      refine ⟨List.mem_append.mpr (Or.inl hadone), ?_⟩
      rw [List.indexOf_append_of_mem hadone,
        List.indexOf_append_of_not_mem hniddone]
      have h3 : List.indexOf b [b] = 0 := List.indexOf_cons_self b []
      rw [h3, Nat.add_zero]
      exact List.indexOf_lt_length.mpr hadone

lemma length_le_of_nodup_subset {d l : List Nat} (hd : d.Nodup)
    (hsub : ∀ v ∈ d, v ∈ l) : d.length ≤ l.length := by
  have h1 : d.toFinset ⊆ l.toFinset := by
    intro v hv
    exact List.mem_toFinset.mpr (hsub v (List.mem_toFinset.mp hv))
  calc d.length = d.toFinset.card := (List.toFinset_card_of_nodup hd).symm
    _ ≤ l.toFinset.card := Finset.card_le_card h1
    _ ≤ l.length := l.toFinset_card_le

lemma mem_of_nodup_subset_length {d l : List Nat} (hd : d.Nodup)
    (hl : l.Nodup) (hsub : ∀ v ∈ d, v ∈ l) (hlen : l.length ≤ d.length) :
    ∀ v ∈ l, v ∈ d := by
  have h1 : d.toFinset ⊆ l.toFinset := by
    intro v hv
    exact List.mem_toFinset.mpr (hsub v (List.mem_toFinset.mp hv))
  have hcard : l.toFinset.card ≤ d.toFinset.card := by
    rw [List.toFinset_card_of_nodup hd, List.toFinset_card_of_nodup hl]
    exact hlen
  have heq := Finset.eq_of_subset_of_card_le h1 hcard
  intro v hv
  exact List.mem_toFinset.mp (heq ▸ List.mem_toFinset.mpr hv)

/-- Fuel `pl.length` always suffices: the loop runs until the queue is
empty, and the final state still satisfies the invariant. -/
lemma kahnLoop_run (pl : List ENode) (hnd : (pl.map (fun n => n.id)).Nodup) :
    ∀ (fuel : Nat) (indeg : Nat → Int) (queue done : List Nat),
      KInv pl done queue indeg →
      pl.length ≤ fuel + done.length →
      ∃ doneF indegF,
        kahnLoop (adjOf pl (pl.map (fun n => n.id))) fuel indeg queue done
          = doneF ∧ KInv pl doneF [] indegF := by
  intro fuel
  induction fuel with
  | zero =>
    intro indeg queue done hinv hlen
    have hqe : queue = [] := by
      rcases hq : queue with _ | ⟨v, q2⟩
      · rfl
      · exfalso
        have hv : v ∈ queue := by
          rw [hq]
          exact List.mem_cons_self _ _
        have h1 := hinv.qsub v hv
        have h2 := hinv.qd v hv
        have hall := mem_of_nodup_subset_length hinv.dnd hnd hinv.dsub
          (by
            rw [List.length_map]
            omega)
        exact h2 (hall v h1)
    subst hqe
    exact ⟨done, indeg, rfl, hinv⟩
  | succ f ih =>
    intro indeg queue done hinv hlen
    rcases hq : queue with _ | ⟨nid, rest⟩
    · subst hq
      exact ⟨done, indeg, rfl, hinv⟩
    · subst hq
      have hstep := kahn_step pl hnd hinv
      have hnext := ih
        (decChildren (adjOf pl (pl.map (fun n => n.id)) nid) (indeg, rest)).1
        (decChildren (adjOf pl (pl.map (fun n => n.id)) nid) (indeg, rest)).2
        (done ++ [nid]) hstep
        (by
          rw [List.length_append, List.length_singleton]
          omega)
      rcases hnext with ⟨doneF, indegF, hrun, hinvF⟩
      exact ⟨doneF, indegF, hrun, hinvF⟩

/-- Pigeonhole: a finite nonempty set in which every element has an
in-neighbour inside the set contains a cycle. -/
lemma cycle_of_all_have_pred {r : Nat → Nat → Prop} (S : List Nat)
    (hS : S ≠ []) (h : ∀ v ∈ S, ∃ u ∈ S, r u v) :
    ∃ v, Relation.TransGen r v v := by
  rcases S with _ | ⟨v0, S2⟩
  · exact absurd rfl hS
  have hv0 : v0 ∈ v0 :: S2 := List.mem_cons_self _ _
  classical
  let g : Nat → Nat := fun v =>
    if hv : v ∈ v0 :: S2 then (h v hv).choose else v0
  have hg : ∀ v ∈ v0 :: S2, g v ∈ v0 :: S2 ∧ r (g v) v := by
    intro v hv
    show (if hv : v ∈ v0 :: S2 then (h v hv).choose else v0) ∈ _
      ∧ r (if hv : v ∈ v0 :: S2 then (h v hv).choose else v0) v
    rw [dif_pos hv]
    rcases (h v hv).choose_spec with ⟨h1, h2⟩
    exact ⟨h1, h2⟩
  have hseq : ∀ k, g^[k] v0 ∈ v0 :: S2 := by
    intro k
    induction k with
    | zero => exact hv0
    | succ k2 ihk =>
      rw [Function.iterate_succ_apply']
      exact (hg _ ihk).1
  have hstepr : ∀ k, r (g^[k + 1] v0) (g^[k] v0) := by
    intro k
    rw [Function.iterate_succ_apply']
    exact (hg _ (hseq k)).2
  have hchain : ∀ j i, i < j → Relation.TransGen r (g^[j] v0) (g^[i] v0) := by
    intro j
    induction j with
    | zero => intro i hi; omega
    | succ j2 ihj =>
      intro i hi
      rcases Nat.lt_or_ge i j2 with hij | hij
      · exact Relation.TransGen.head (hstepr j2) (ihj i hij)
      · have hieq : i = j2 := by omega
        subst hieq
        exact Relation.TransGen.single (hstepr i)
  have hcard : ((v0 :: S2).toFinset).card
      < (Finset.range ((v0 :: S2).length + 1)).card := by
    rw [Finset.card_range]
    have h1 : (v0 :: S2).toFinset.card ≤ (v0 :: S2).length :=
      (v0 :: S2).toFinset_card_le
    omega
  have hmaps : ∀ k ∈ Finset.range ((v0 :: S2).length + 1),
      g^[k] v0 ∈ (v0 :: S2).toFinset :=
    fun k _ => List.mem_toFinset.mpr (hseq k)
  have hpigeon := Finset.exists_ne_map_eq_of_card_lt_of_maps_to hcard hmaps
  rcases hpigeon with ⟨i, _, j, _, hij, heq⟩
  rcases Nat.lt_or_ge i j with hlt | hge
  · have h1 := hchain j i hlt
    rw [← heq] at h1
    exact ⟨g^[i] v0, h1⟩
  · have hlt : j < i := by omega
    have h1 := hchain i j hlt
    rw [heq] at h1
    exact ⟨g^[j] v0, h1⟩

lemma KEdge_target_mem {pl : List ENode} {a b : Nat} (h : KEdge pl a b) :
    b ∈ pl.map (fun n => n.id) := by
  rcases h with ⟨m, _, _, hbt⟩
  have h2 := List.mem_filter.mp hbt
  exact of_decide_eq_true h2.2

lemma exists_source_outside : ∀ (pl : List ENode) (ids done : List Nat)
    (v : Nat), fromCount pl ids done v < initIndegN pl ids v →
    ∃ m ∈ pl, m.id ∉ done ∧ 0 < (targetsIn ids m).count v := by
  intro pl
  induction pl with
  | nil =>
    intro ids done v hlt
    unfold fromCount initIndegN at hlt
    simp at hlt
  | cons a t ih =>
    intro ids done v hlt
    have hsplit : fromCount (a :: t) ids done v =
        (if a.id ∈ done then (targetsIn ids a).count v else 0)
        + fromCount t ids done v := by
      unfold fromCount
      rw [List.map_cons, List.sum_cons]
    have hsplit2 : initIndegN (a :: t) ids v =
        (targetsIn ids a).count v + initIndegN t ids v := by
      unfold initIndegN
      rw [List.map_cons, List.sum_cons]
    rw [hsplit, hsplit2] at hlt
    by_cases ha : a.id ∈ done
    · rw [if_pos ha] at hlt
      have htail : fromCount t ids done v < initIndegN t ids v := by omega
      rcases ih ids done v htail with ⟨m, hm, hmd, hmc⟩
      exact ⟨m, List.mem_cons_of_mem _ hm, hmd, hmc⟩
    · rw [if_neg ha] at hlt
      by_cases hc : 0 < (targetsIn ids a).count v
      · exact ⟨a, List.mem_cons_self _ _, ha, hc⟩
      · have hc0 : (targetsIn ids a).count v = 0 := by omega
        have htail : fromCount t ids done v < initIndegN t ids v := by omega
        rcases ih ids done v htail with ⟨m, hm, hmd, hmc⟩
        exact ⟨m, List.mem_cons_of_mem _ hm, hmd, hmc⟩

/-- C6: `ExecutionPlanner.topological_sort` over the planned node set (all
nodes, or the dirty-induced subgraph under `dirty_only`): whenever it
returns an order, every planned edge `a → b` goes forward in it (and the
order is a complete duplicate-free enumeration of the planned nodes); and it
raises the fatal scheduling error — detected as a size mismatch between the
produced ordering and the planned node count — exactly when the planned
subgraph contains a cycle. -/
theorem topological_sort_correct (nodes : List ENode) (dirtyOnly : Bool)
    (hnd : ((planned nodes dirtyOnly).map (fun n => n.id)).Nodup) :
    (∀ res, topologicalSort nodes dirtyOnly = .ok res →
        res.length = (planned nodes dirtyOnly).length ∧ res.Nodup
        ∧ (∀ a b, KEdge (planned nodes dirtyOnly) a b →
            a ∈ res ∧ b ∈ res ∧ res.indexOf a < res.indexOf b))
    ∧ ((∃ msg, topologicalSort nodes dirtyOnly = .error msg)
        ↔ ∃ v, Relation.TransGen (KEdge (planned nodes dirtyOnly)) v v) := by
  obtain ⟨doneF, indegF, hrun, hinvF⟩ :=
    kahnLoop_run (planned nodes dirtyOnly) hnd
      (planned nodes dirtyOnly).length
      (initIndeg (planned nodes dirtyOnly)
        ((planned nodes dirtyOnly).map (fun n => n.id)))
      (((planned nodes dirtyOnly).map (fun n => n.id)).filter
        (fun i => initIndeg (planned nodes dirtyOnly)
          ((planned nodes dirtyOnly).map (fun n => n.id)) i = 0))
      [] (kahn_init (planned nodes dirtyOnly) hnd) (by simp)
  have heval : topologicalSort nodes dirtyOnly =
      (if doneF.length ≠ (planned nodes dirtyOnly).length
       then .error "Cycle detected in graph — cannot schedule execution"
       else .ok doneF) := by
    simp only [topologicalSort]
    rw [hrun]
  by_cases hlen : doneF.length = (planned nodes dirtyOnly).length
  · have hok : topologicalSort nodes dirtyOnly = .ok doneF := by
      rw [heval, if_neg (fun h => h hlen)]
    have hall : ∀ v ∈ (planned nodes dirtyOnly).map (fun n => n.id),
        v ∈ doneF :=
      mem_of_nodup_subset_length hinvF.dnd hnd hinvF.dsub
        (by
          rw [List.length_map]
          omega)
    constructor
    · intro res hres
      rw [hok] at hres
      injection hres with hres2
      subst hres2
      refine ⟨hlen, hinvF.dnd, ?_⟩
      intro a b hedge
      have hbdone : b ∈ doneF := hall b (KEdge_target_mem hedge)
      have hord := hinvF.ord a b hedge hbdone
      exact ⟨hord.1, hbdone, hord.2⟩
    · constructor
      · intro h
        rcases h with ⟨msg, hmsg⟩
        rw [hok] at hmsg
        exact Except.noConfusion hmsg
      · intro h
        rcases h with ⟨v, hcyc⟩
        exfalso
        have hmono : ∀ a b,
            Relation.TransGen (KEdge (planned nodes dirtyOnly)) a b →
            doneF.indexOf a < doneF.indexOf b := by
          intro a b h
          induction h with
          | single hr =>
            rename_i b2
            exact (hinvF.ord a b2 hr (hall b2 (KEdge_target_mem hr))).2
          | tail h1 hr ih =>
            rename_i b2 c2
            exact Nat.lt_trans ih
              (hinvF.ord b2 c2 hr (hall c2 (KEdge_target_mem hr))).2
        exact Nat.lt_irrefl _ (hmono v v hcyc)
  · have herr : topologicalSort nodes dirtyOnly =
        .error "Cycle detected in graph — cannot schedule execution" := by
      rw [heval, if_pos hlen]
    constructor
    · intro res hres
      rw [herr] at hres
      exact Except.noConfusion hres
    · constructor
      · intro _
        apply cycle_of_all_have_pred
          (((planned nodes dirtyOnly).map (fun n => n.id)).filter
            (fun v => ¬ v ∈ doneF))
        · intro hS
          have hallid : ∀ v ∈ (planned nodes dirtyOnly).map (fun n => n.id),
              v ∈ doneF := by
            intro v hv
            by_contra hvd
            have hmem : v ∈ (((planned nodes dirtyOnly).map
                (fun n => n.id)).filter (fun v => ¬ v ∈ doneF)) :=
              List.mem_filter.mpr ⟨hv, by simpa using hvd⟩
            rw [hS] at hmem
            cases hmem
          have hle := length_le_of_nodup_subset hnd hallid
          have hle2 := length_le_of_nodup_subset hinvF.dnd hinvF.dsub
          rw [List.length_map] at hle hle2
          omega
        · intro v hv
          have hvids := (List.mem_filter.mp hv).1
          have hvdone : v ∉ doneF := by
            simpa using (List.mem_filter.mp hv).2
          have hne0 : ¬ indegF v = 0 := by
            intro h0
            have h1 := hinvF.q6 v hvids hvdone h0
            cases h1
          have hindv := hinvF.ind v
          have hle := fromCount_le_init (planned nodes dirtyOnly)
            ((planned nodes dirtyOnly).map (fun n => n.id)) doneF v
          have hlt : fromCount (planned nodes dirtyOnly)
              ((planned nodes dirtyOnly).map (fun n => n.id)) doneF v
              < initIndegN (planned nodes dirtyOnly)
                ((planned nodes dirtyOnly).map (fun n => n.id)) v := by
            unfold initIndeg at hindv
            omega
          rcases exists_source_outside (planned nodes dirtyOnly)
            ((planned nodes dirtyOnly).map (fun n => n.id)) doneF v hlt
            with ⟨m, hm, hmd, hmc⟩
          refine ⟨m.id, ?_, ⟨m, hm, rfl, List.count_pos_iff_mem.mp hmc⟩⟩
          exact List.mem_filter.mpr
            ⟨List.mem_map_of_mem (fun n => n.id) hm, by simpa using hmd⟩
      · intro _
        exact ⟨"Cycle detected in graph — cannot schedule execution", herr⟩

/-- Witness chain `0 → 1`, all nodes dirty. -/
def topoWitnessNodes : List ENode :=
  [⟨0, true, [1], []⟩, ⟨1, true, [], [0]⟩]

/-- C6 (witness): the correctness theorem applied to the concrete
two-node chain. -/
theorem topological_sort_correct_witness :
    (∀ res, topologicalSort topoWitnessNodes false = .ok res →
        res.length = (planned topoWitnessNodes false).length ∧ res.Nodup
        ∧ (∀ a b, KEdge (planned topoWitnessNodes false) a b →
            a ∈ res ∧ b ∈ res ∧ res.indexOf a < res.indexOf b))
    ∧ ((∃ msg, topologicalSort topoWitnessNodes false = .error msg)
        ↔ ∃ v, Relation.TransGen (KEdge (planned topoWitnessNodes false))
          v v) :=
  topological_sort_correct topoWitnessNodes false (by decide)

end Persistra
